import Mathlib

/-!
# mqneo4j: layered traversal and aggregation

A shallow embedding of `mqneo4j.go`.  Go maps are association lists with
unique keys, slices are lists, `interface{}` property values are a tagged
sum, and an unrecovered `panic` is an explicit outcome that carries the
state reached when it was raised.  The graph database is a parameter: the
answer to the `i`-th call of `session.Run` with a given query text.

Integers: node identities and property integers are `int64` values that
are only stored and compared, never computed with, so they are `Int`.
`Match.Layer` is a Go `int` that is incremented once per follow-up query;
its value is bounded by the number of entries of an in-memory map, so the
increment never wraps and is plain `+ 1` on `Int`.
-/

namespace Mqneo4j

/-! ## Data model -/

/-- Dynamic value of a node property (`interface{}` in the source).  The
driver delivers integers as `int64`; a Go `int` only arises from a default
assigned by the code itself.  Values of any further dynamic type (floats,
lists, ...) are only ever tested for their type, so they are kept by the
name of that type. -/
inductive Value where
  | int64 (n : Int)
  | int (n : Int)
  | string (s : String)
  | bool (b : Bool)
  | other (typeName : String)
  deriving DecidableEq, Repr

/-- Name of the dynamic type, as the runtime prints it. -/
def Value.typeName : Value → String
  | .int64 _ => "int64"
  | .int _ => "int"
  | .string _ => "string"
  | .bool _ => "bool"
  | .other t => t

/-- Unrecovered panics the code can raise. -/
inductive Panic where
  /-- Explicit `panic("...")` written in the source. -/
  | message (msg : String)
  /-- Failed single-value type assertion `x.(T)`: dynamic type and `T`. -/
  | interfaceConversion (dynamicType : String) (wanted : String)
  /-- Index `[0]` into an empty slice. -/
  | indexOutOfRange
  /-- Method call on a nil interface value. -/
  | nilDereference
  deriving DecidableEq, Repr

/-- Go `error` values, identified by their message. -/
abbrev GoError := String

/-- How a call ended. -/
inductive Status where
  /-- Returned with a nil error. -/
  | ok
  /-- Returned a non-nil error. -/
  | err (e : GoError)
  /-- Did not return: unrecovered panic. -/
  | panic (p : Panic)
  deriving DecidableEq, Repr

/-- Go `map[int64]α`: association list, at most one entry per key. -/
abbrev GoMap (α : Type) := List (Int × α)

/-- Map read `m[k]` with the comma-ok result. -/
def mapGet {α : Type} (k : Int) : GoMap α → Option α
  | [] => none
  | (k', v) :: rest => if k' = k then some v else mapGet k rest

/-- Map assignment `m[k] = v`. -/
def mapSet {α : Type} (k : Int) (v : α) : GoMap α → GoMap α
  | [] => [(k, v)]
  | (k', v') :: rest => if k' = k then (k, v) :: rest else (k', v') :: mapSet k v rest

/-- Keys of a map. -/
def mapKeys {α : Type} (m : GoMap α) : List Int := m.map Prod.fst

/-- Node as delivered by the driver (`neo4j.Node`). -/
structure Node where
  id : Int
  labels : List String
  props : List (String × Value)
  deriving DecidableEq, Repr

/-- Relationship as delivered by the driver (`neo4j.Relationship`). -/
structure Relationship where
  id : Int
  startId : Int
  endId : Int
  type : String
  deriving DecidableEq, Repr

/-- One positional value of a record: a path, a bare node, or a value of any
other dynamic type. -/
inductive RecordValue where
  | path (nodes : List Node) (relationships : List Relationship)
  | node (n : Node)
  | other (typeName : String)
  deriving DecidableEq, Repr

/-- Record: its positional values (`Record().Values()`). -/
abbrev Record := List RecordValue

/-- Property read `nodeprops[key]` with the comma-ok result. -/
def propGet (key : String) : List (String × Value) → Option Value
  | [] => none
  | (k, v) :: rest => if k = key then some v else propGet key rest

structure Connection where
  ID : Int
  ChannelName : String
  ChannelType : Int
  StartID : Int
  EndID : Int
  deriving DecidableEq, Repr

structure QueueManager where
  ID : Int
  QmgrID : Int
  Name : String
  Repos : Int
  ToolTip : String
  Layer : Int
  Decom : Int
  Host : String
  Host2 : String
  MultiInst : Int
  deriving DecidableEq, Repr

structure Application where
  ID : Int
  AppID : Int
  Name : String
  Owner : String
  ToolTip : String
  Layer : Int
  deriving DecidableEq, Repr

structure Neo4jAPIResponse where
  QueueManagers : List QueueManager
  Applications : List Application
  Connections : List Connection
  deriving DecidableEq, Repr

structure Match where
  Neo4jQuery : String
  Layer : Int
  IncludeNodes : Bool
  IncludeApplications : Bool
  Username : String
  deriving DecidableEq, Repr

/-- Everything `RunQuery` reads and writes: the receiver `m`, the
accumulated response, the three identity maps, and (as a record of the
interaction with the database) the query texts passed to `session.Run` so
far, oldest first. -/
structure State where
  m : Match
  resp : Neo4jAPIResponse
  respqmgr : GoMap QueueManager
  respapp : GoMap Application
  respconns : GoMap Connection
  issued : List String
  deriving DecidableEq, Repr

/-- Query session: the outcome of the `i`-th call (counting from 0) of
`session.Run` with the given text, as the records `result.Next()` yields
or the error returned. -/
structure Session where
  run : Nat → String → Except GoError (List Record)

/-- Driver: `NewSession` yields a session, or an error together with a nil
session. -/
structure Driver where
  newSession : Except GoError Session

/-! ## Relationship classifier -/

/-- Source: `channelType`. -/
def channelType (channelName : String) : Int :=
  if channelName = "SENDER" then 1
  else if channelName = "SERVER" then 2
  else if channelName = "RECEIVER" then 3
  else if channelName = "REQUESTER" then 4
  else if channelName = "CLIENT_CONN" then 6
  else if channelName = "CLNTCONN" then 6
  else if channelName = "SERVER_CONN" then 7
  else if channelName = "SVRCONN" then 7
  else if channelName = "CLUSTER_RECEIVER" then 8
  else if channelName = "CLUSRCVR" then 8
  else if channelName = "CLUSTER_SENDER" then 9
  else if channelName = "CLUSSDR" then 9
  else if channelName = "MQTT" then 10
  else 99

/-! ## Node extraction -/

/-- Type assertion `v.(int64)`. -/
def assertInt64 (v : Value) : Except Panic Int :=
  match v with
  | .int64 n => .ok n
  | other => .error (.interfaceConversion other.typeName "int64")

/-- Type assertion `v.(string)`. -/
def assertString (v : Value) : Except Panic String :=
  match v with
  | .string s => .ok s
  | other => .error (.interfaceConversion other.typeName "string")

/-- Role code computed by the `switch repos` of `processQueueManagerNode`. -/
def reposCode (repos : Value) : Int :=
  if repos = .string "Full" then 0
  else if repos = .string "Partial" then 1
  else if repos = .string "Normal" then 2
  else 3

/-- Tooltip of a queue manager:
`Sprintf("id:%d, qmid:%d, name:%s, type:%s, server:%s", nodeid, qmid, name, "Full-Partial", host)`. -/
def qmToolTip (nodeid qmid : Int) (name host : String) : String :=
  "id:" ++ toString nodeid ++ ", qmid:" ++ toString qmid ++ ", name:" ++ name
    ++ ", type:Full-Partial, server:" ++ host

/-- Tooltip of an application: the same five-verb mask with four operands,
so the last verb prints as missing. -/
def appToolTip (nodeid appid : Int) (name owner : String) : String :=
  "id:" ++ toString nodeid ++ ", qmid:" ++ toString appid ++ ", name:" ++ name
    ++ ", type:" ++ owner ++ ", server:%!s(MISSING)"

/-- The record `processQueueManagerNode` builds from a node (everything up
to the insertion), or the panic raised on the way. -/
def buildQueueManager (node : Node) (m : Match) : Except Panic QueueManager :=
  let nodeprops := node.props
  let nodeid := node.id
  match propGet "qmid" nodeprops with
  | none => .error (.message "Error getting mqid property")
  | some qmid =>
  match propGet "name" nodeprops with
  | none => .error (.message "Error getting name property")
  | some name =>
  match propGet "host" nodeprops with
  | none => .error (.message "Error getting host property")
  | some host =>
  let host2 := (propGet "host2" nodeprops).getD (.string "")
  let repos := (propGet "type" nodeprops).getD (.string "Partial")
  let multi := (propGet "multi" nodeprops).getD (.int 0)
  let qmtype := reposCode repos
  -- decom, ok := nodeprops["decom"].(int64)
  let (qmtype, decom) :=
    match propGet "decom" nodeprops with
    | some (.int64 d) => (qmtype, d)
    | _ => (3, 0)
  match assertInt64 qmid with
  | .error p => .error p
  | .ok qmidV =>
  match assertString name with
  | .error p => .error p
  | .ok nameV =>
  match assertString host with
  | .error p => .error p
  | .ok hostV =>
  match assertString host2 with
  | .error p => .error p
  | .ok host2V =>
  match assertInt64 multi with
  | .error p => .error p
  | .ok multiV =>
  .ok { ID := nodeid, QmgrID := qmidV, Name := nameV, Repos := qmtype,
        ToolTip := qmToolTip nodeid qmidV nameV hostV, Layer := m.Layer,
        Decom := decom, Host := hostV, Host2 := host2V, MultiInst := multiV }

/-- Source: `processQueueManagerNode`. -/
def processQueueManagerNode (st : State) (node : Node) : State × Status :=
  match buildQueueManager node st.m with
  | .error p => (st, .panic p)
  | .ok qm =>
    match mapGet node.id st.respqmgr with
    | some _ => (st, .ok)
    | none =>
      ({ st with
          respqmgr := mapSet node.id qm st.respqmgr
          resp := { st.resp with QueueManagers := st.resp.QueueManagers ++ [qm] } },
        .ok)

/-- The record `processApplicationNode` builds from a node, or the panic
raised on the way. -/
def buildApplication (node : Node) (m : Match) : Except Panic Application :=
  let nodeprops := node.props
  let nodeid := node.id
  match propGet "id" nodeprops with
  | none => .error (.message "Error getting id property")
  | some appid =>
  match propGet "name" nodeprops with
  | none => .error (.message "Error getting name property")
  | some name =>
  match propGet "owner" nodeprops with
  | none => .error (.message "Error getting owner property")
  | some owner =>
  match assertInt64 appid with
  | .error p => .error p
  | .ok appidV =>
  match assertString name with
  | .error p => .error p
  | .ok nameV =>
  match assertString owner with
  | .error p => .error p
  | .ok ownerV =>
  .ok { ID := nodeid, AppID := appidV, Name := nameV, Owner := ownerV,
        ToolTip := appToolTip nodeid appidV nameV ownerV, Layer := m.Layer }

/-- Source: `processApplicationNode`. -/
def processApplicationNode (st : State) (node : Node) : State × Status :=
  match buildApplication node st.m with
  | .error p => (st, .panic p)
  | .ok app =>
    match mapGet node.id st.respapp with
    | some _ => (st, .ok)
    | none =>
      ({ st with
          respapp := mapSet node.id app st.respapp
          resp := { st.resp with Applications := st.resp.Applications ++ [app] } },
        .ok)

/-! ## Query processing -/

/-- Body of the `switch lab[0]` in `runQueryOnCurrentNode` for one node. -/
def processNode (st : State) (node : Node) : State × Status :=
  match node.labels with
  | [] => (st, .panic .indexOutOfRange)
  | lab0 :: _ =>
    if lab0 = "QueueManager" then processQueueManagerNode st node
    else if lab0 = "Application" then processApplicationNode st node
    else (st, .ok)

/-- Loop `for _, node := range nodes` of `runQueryOnCurrentNode`. -/
def processNodes : List Node → State → State × Status
  | [], st => (st, .ok)
  | node :: rest, st =>
    match processNode st node with
    | (st1, .ok) => processNodes rest st1
    | (st1, s) => (st1, s)

/-- Body of the relationship loop of `runQueryOnCurrentNode`. -/
def processRelationship (st : State) (rel : Relationship) : State :=
  let conns : Connection :=
    { ID := rel.id, ChannelName := rel.type, ChannelType := channelType rel.type,
      StartID := rel.startId, EndID := rel.endId }
  match mapGet rel.id st.respconns with
  | some _ => st
  | none =>
    { st with
        respconns := mapSet rel.id conns st.respconns
        resp := { st.resp with Connections := st.resp.Connections ++ [conns] } }

/-- Loop `for _, rels := range relationships` of `runQueryOnCurrentNode`. -/
def processRelationships : List Relationship → State → State
  | [], st => st
  | rel :: rest, st => processRelationships rest (processRelationship st rel)

/-- Loop `for result.Next()` of `runQueryOnCurrentNode`.  The first argument is
the variable `nodes`, declared before the loop and carried from one record
to the next. -/
def processRecords (onlyRelationships : Bool) : List Node → List Record → State → State × Status
  | _, [], st => (st, .ok)
  | nodes, values :: more, st =>
    match values with
    | [] => (st, .panic .indexOutOfRange)
    | .other t :: _ => (st, .panic (.interfaceConversion t "neo4j.Node"))
    | .node n :: _ =>
      let nodes1 := nodes ++ [n]
      if onlyRelationships then processRecords onlyRelationships nodes1 more st
      else
        match processNodes nodes1 st with
        | (st1, .ok) => processRecords onlyRelationships nodes1 more st1
        | (st1, s) => (st1, s)
    | .path pnodes relationships :: _ =>
      if onlyRelationships then
        processRecords onlyRelationships pnodes more (processRelationships relationships st)
      else
        match processNodes pnodes st with
        | (st1, .ok) =>
          processRecords onlyRelationships pnodes more (processRelationships relationships st1)
        | (st1, s) => (st1, s)

/-- Source: `runQueryOnCurrentNode` (with `executeNeo4jQuery` inlined).  On a
query error the response passed in is returned as it is. -/
def runQueryOnCurrentNode (session : Session) (st : State) (onlyRelationships : Bool) :
    State × Status :=
  let st1 := { st with issued := st.issued ++ [st.m.Neo4jQuery] }
  match session.run st.issued.length st.m.Neo4jQuery with
  | .error e => (st1, .err e)
  | .ok records => processRecords onlyRelationships [] records st1

/-! ## Layered traversal -/

/-- Text of the follow-up query for a queue manager,
`Sprintf("match p=(q {qmid: %d})-[]-() return p", node.QmgrID)`. -/
def followUpQuery (qmgrID : Int) : String :=
  "match p=(q \x7bqmid: " ++ toString qmgrID ++ "\x7d)-[]-() return p"

/-- Body of the loop `for _, node := range respqmgr` of `RunQuery`.  The error
of the follow-up query is assigned to a variable local to the body and
dropped. -/
def followUp (session : Session) (st : State) (node : QueueManager) : State × Status :=
  let st1 := { st with m := { st.m with Neo4jQuery := followUpQuery node.QmgrID,
                                        Layer := st.m.Layer + 1 } }
  match runQueryOnCurrentNode session st1 st1.m.IncludeNodes with
  | (st2, .panic p) => (st2, .panic p)
  | (st2, _) => (st2, .ok)

/-- Loop `for _, node := range respqmgr` of `RunQuery`, run along a given
production order of the map's keys.  The language leaves the order of a
range over a map open, and lets an entry created during the iteration be
produced or skipped, so the order is a parameter.  The second argument
holds the keys produced so far.  The result is `none` when the order is not
one a range can produce: a key is produced twice, or is not in the map when
it is produced. -/
def rangeLoop (session : Session) : List Int → List Int → State → Option (State × Status)
  | [], _, st => some (st, .ok)
  | k :: rest, visited, st =>
    if k ∈ visited then none
    else
      match mapGet k st.respqmgr with
      | none => none
      | some node =>
        match followUp session st node with
        | (st1, .ok) => rangeLoop session rest (k :: visited) st1
        | (st1, s) => some (st1, s)

/-- State at entry of `RunQuery`: empty response and empty maps. -/
def initState (m : Match) : State :=
  { m := m, resp := { QueueManagers := [], Applications := [], Connections := [] },
    respqmgr := [], respapp := [], respconns := [], issued := [] }

/-- Source: `Match.RunQuery`.  `order` is the production order of the range over
`respqmgr`; every key in the map when the loop starts has to be in it.
The result is the final state (the returned response, the receiver as
left behind, the queries issued) and how the call ended.  The deferred
`closeSession` is registered before the error of `NewSession` is looked
at: when no session could be opened it calls `Close` on the nil session
and panics, so the error is never returned.  Closing an opened session is
left to the driver. -/
def RunQuery (driver : Driver) (order : List Int) (m : Match) : Option (State × Status) :=
  match driver.newSession with
  | .error _ => some (initState m, .panic .nilDereference)
  | .ok session =>
    let maxLayers := m.Layer
    let st0 := { initState m with m := { m with Layer := 1 } }
    match runQueryOnCurrentNode session st0 false with
    | (st1, .ok) =>
      if maxLayers > st1.m.Layer then
        if (mapKeys st1.respqmgr).all (fun k => decide (k ∈ order)) then
          rangeLoop session order [] st1
        else none
      else some (st1, .ok)
    | (st1, s) => some (st1, s)

/-! ## Store consistency -/

/-- Consistency of one store: the ordered list holds no identity twice, every
list entry is the map's value for its identity, and every key of the map
is the identity of a list entry. -/
def StoreInv {α : Type} (ident : α → Int) (list : List α) (map : GoMap α) : Prop :=
  (list.map ident).Nodup ∧ (∀ e ∈ list, mapGet (ident e) map = some e)
    ∧ (∀ k ∈ mapKeys map, k ∈ list.map ident)

/-- The three stores of a state are consistent. -/
def Inv (st : State) : Prop :=
  StoreInv QueueManager.ID st.resp.QueueManagers st.respqmgr
    ∧ StoreInv Application.ID st.resp.Applications st.respapp
    ∧ StoreInv Connection.ID st.resp.Connections st.respconns

instance {α : Type} [DecidableEq α] (ident : α → Int) (list : List α) (map : GoMap α) :
    Decidable (StoreInv ident list map) := by
  unfold StoreInv; infer_instance

instance (st : State) : Decidable (Inv st) := by
  unfold Inv; infer_instance

/-- What processing query results may do to a state: the receiver and the
record of issued queries stay, each ordered list is extended at its end
(nodes recorded with the current layer), entries of the queue manager map
stay, and consistency of the stores is kept. -/
structure Grows (st st' : State) : Prop where
  m_eq : st'.m = st.m
  issued_eq : st'.issued = st.issued
  qms : ∃ added, st'.resp.QueueManagers = st.resp.QueueManagers ++ added
    ∧ ∀ q ∈ added, q.Layer = st.m.Layer
  apps : ∃ added, st'.resp.Applications = st.resp.Applications ++ added
    ∧ ∀ a ∈ added, a.Layer = st.m.Layer
  conns : ∃ added, st'.resp.Connections = st.resp.Connections ++ added
  qmap : ∀ k v, mapGet k st.respqmgr = some v → mapGet k st'.respqmgr = some v
  inv : Inv st → Inv st'

/-! ## Specification-side definitions -/

/-- The lookup table of the relationship classifier as the specification
writes it: names and codes, row by row. -/
def channelTypeTable : List (String × Int) :=
  [("SENDER", 1), ("SERVER", 2), ("RECEIVER", 3), ("REQUESTER", 4),
   ("CLIENT_CONN", 6), ("CLNTCONN", 6), ("SERVER_CONN", 7), ("SVRCONN", 7),
   ("CLUSTER_RECEIVER", 8), ("CLUSRCVR", 8), ("CLUSTER_SENDER", 9), ("CLUSSDR", 9),
   ("MQTT", 10)]

/-- Classifier as the specification words it: the code of the row whose name
equals the argument exactly, and 99 when there is no such row. -/
def classifyChannelSpec (typeName : String) : Int :=
  match channelTypeTable.find? (fun row => decide (row.1 = typeName)) with
  | some row => row.2
  | none => 99

/-! ## Scenarios -/

/-- Queue manager node of the end-to-end scenario: properties exactly
`qmid=10, name="QM1", host="h1"`. -/
def e2eQmgrNode : Node :=
  { id := 1, labels := ["QueueManager"],
    props := [("qmid", .int64 10), ("name", .string "QM1"), ("host", .string "h1")] }

/-- Application node of the end-to-end scenario: properties exactly
`id=5, name="APP1", owner="team1"`. -/
def e2eAppNode : Node :=
  { id := 2, labels := ["Application"],
    props := [("id", .int64 5), ("name", .string "APP1"), ("owner", .string "team1")] }

/-- Relationship of the end-to-end scenario, from the application to the
queue manager. -/
def e2eRel : Relationship := { id := 99, startId := 2, endId := 1, type := "SVRCONN" }

/-- Database of the end-to-end scenario: every query returns the one path. -/
def e2eDriver : Driver :=
  { newSession := .ok { run := fun _ _ => .ok [[.path [e2eQmgrNode, e2eAppNode] [e2eRel]]] } }

/-- Database of the end-to-end scenario with the nodes of the path in the other order. -/
def e2eDriverRev : Driver :=
  { newSession := .ok { run := fun _ _ => .ok [[.path [e2eAppNode, e2eQmgrNode] [e2eRel]]] } }

/-- Request of the end-to-end scenario: `maxLayers = 1`. -/
def e2eMatch : Match :=
  { Neo4jQuery := "match p=()-[]-() return p", Layer := 1, IncludeNodes := false,
    IncludeApplications := false, Username := "" }

/-- The connection record built from a relationship. -/
def connectionOf (rel : Relationship) : Connection :=
  { ID := rel.id, ChannelName := rel.type, ChannelType := channelType rel.type,
    StartID := rel.startId, EndID := rel.endId }

/-- First round of `RunQuery`: the root query, run on the empty state with the
layer set to 1. -/
def rootRound (session : Session) (m : Match) : State × Status :=
  runQueryOnCurrentNode session { initState m with m := { m with Layer := 1 } } false

/-- Request used in the examples: layer as given, node classification active
in follow-up queries. -/
def demoMatch (maxLayers : Int) : Match :=
  { Neo4jQuery := "match p=()-[]-() return p", Layer := maxLayers, IncludeNodes := false,
    IncludeApplications := false, Username := "" }

/-- Queue manager node with all properties the extraction reads as `int64` or
string values. -/
def demoQmgrNode (id qmid : Int) (name : String) : Node :=
  { id := id, labels := ["QueueManager"],
    props := [("qmid", .int64 qmid), ("name", .string name), ("host", .string "h1"),
              ("multi", .int64 0)] }

/-- Application node with its three required properties. -/
def demoAppNode (id appid : Int) (name : String) : Node :=
  { id := id, labels := ["Application"],
    props := [("id", .int64 appid), ("name", .string name), ("owner", .string "team1")] }

/-- The node side of two states is the same: queue manager and application
maps and ordered lists. -/
def SameNodes (st st' : State) : Prop :=
  st'.respqmgr = st.respqmgr ∧ st'.respapp = st.respapp
    ∧ st'.resp.QueueManagers = st.resp.QueueManagers
    ∧ st'.resp.Applications = st.resp.Applications

/-- Texts of the follow-up queries for the keys of an iteration order, read
from a queue manager map. -/
def followUpTexts (map : GoMap QueueManager) (order : List Int) : List String :=
  order.filterMap (fun k => (mapGet k map).map (fun q => followUpQuery q.QmgrID))

/-- Example database with two queue managers behind the root query and one
application behind each of them: the follow-up query for external id 10
finds application 5, the one for external id 20 finds application 6. -/
def twoQmgrSession : Session :=
  { run := fun _ q =>
      if q = followUpQuery 10 then
        .ok [[.path [demoQmgrNode 1 10 "QM1", demoAppNode 3 5 "APP1"]
                    [{ id := 101, startId := 3, endId := 1, type := "SVRCONN" }]]]
      else if q = followUpQuery 20 then
        .ok [[.path [demoQmgrNode 2 20 "QM2", demoAppNode 4 6 "APP2"]
                    [{ id := 102, startId := 4, endId := 2, type := "SVRCONN" }]]]
      else
        .ok [[.path [demoQmgrNode 1 10 "QM1", demoQmgrNode 2 20 "QM2"]
                    [{ id := 100, startId := 1, endId := 2, type := "SENDER" }]]] }

/-- Example database with a chain: the root query finds queue manager 10 alone
(a bare node), its follow-up query finds queue manager 20, and the
follow-up query of that one finds application 5. -/
def chainSession : Session :=
  { run := fun _ q =>
      if q = followUpQuery 10 then
        .ok [[.path [demoQmgrNode 1 10 "QM1", demoQmgrNode 2 20 "QM2"]
                    [{ id := 100, startId := 1, endId := 2, type := "SENDER" }]]]
      else if q = followUpQuery 20 then
        .ok [[.path [demoQmgrNode 2 20 "QM2", demoAppNode 3 5 "APP1"]
                    [{ id := 101, startId := 3, endId := 2, type := "SVRCONN" }]]]
      else
        .ok [[.node (demoQmgrNode 1 10 "QM1")]] }

/-- Example database in which two queue manager nodes carry the same external
id 10, so that their follow-up queries have the same text. -/
def twinSession : Session :=
  { run := fun _ q =>
      if q = followUpQuery 10 then
        .ok [[.path [demoQmgrNode 1 10 "QM1", demoAppNode 3 5 "APP1"]
                    [{ id := 101, startId := 3, endId := 1, type := "SVRCONN" }]]]
      else
        .ok [[.path [demoQmgrNode 1 10 "QM1", demoQmgrNode 2 10 "QM1B"]
                    [{ id := 100, startId := 1, endId := 2, type := "SENDER" }]]] }

/-- Record loop as the naive reading has it: each record contributes only its
own nodes, the nodes of its path or its single bare node; everything else
as in `processRecords`. -/
def processRecordsNaive (onlyRelationships : Bool) : List Record → State → State × Status
  | [], st => (st, .ok)
  | values :: more, st =>
    match values with
    | [] => (st, .panic .indexOutOfRange)
    | .other t :: _ => (st, .panic (.interfaceConversion t "neo4j.Node"))
    | .node n :: _ =>
      if onlyRelationships then processRecordsNaive onlyRelationships more st
      else
        match processNodes [n] st with
        | (st1, .ok) => processRecordsNaive onlyRelationships more st1
        | (st1, s) => (st1, s)
    | .path pnodes relationships :: _ =>
      if onlyRelationships then
        processRecordsNaive onlyRelationships more (processRelationships relationships st)
      else
        match processNodes pnodes st with
        | (st1, .ok) =>
          processRecordsNaive onlyRelationships more (processRelationships relationships st1)
        | (st1, s) => (st1, s)

/-- A node is done in a state: processing it (again) changes nothing and ends
normally.  Spelled out: its first label is not one of the two kinds, or
its record can be built in the current layer and its identity is in the
map of its kind. -/
def NodeDone (st : State) (node : Node) : Prop :=
  match node.labels with
  | [] => False
  | lab0 :: _ =>
    if lab0 = "QueueManager" then
      (∃ qm, buildQueueManager node st.m = .ok qm) ∧ (∃ q, mapGet node.id st.respqmgr = some q)
    else if lab0 = "Application" then
      (∃ app, buildApplication node st.m = .ok app) ∧ (∃ a, mapGet node.id st.respapp = some a)
    else True

/-- A later state keeps the receiver and every key of the two node maps. -/
def KeepsNodes (st st' : State) : Prop :=
  st'.m = st.m
    ∧ (∀ k q, mapGet k st.respqmgr = some q → ∃ q', mapGet k st'.respqmgr = some q')
    ∧ (∀ k a, mapGet k st.respapp = some a → ∃ a', mapGet k st'.respapp = some a')

/-- Queue manager node of type `"Full"` with all properties present and the
given value of `decom`. -/
def fullQmgrNode (decom : Value) : Node :=
  { id := 1, labels := ["QueueManager"],
    props := [("qmid", .int64 10), ("name", .string "QM1"), ("host", .string "h1"),
              ("multi", .int64 0), ("type", .string "Full"), ("decom", decom)] }

/-- Record expected for `fullQmgrNode` in layer 1, with role and decommission
value as given. -/
def fullQmgrRecord (repos decom : Int) : QueueManager :=
  { ID := 1, QmgrID := 10, Name := "QM1", Repos := repos,
    ToolTip := "id:1, qmid:10, name:QM1, type:Full-Partial, server:h1", Layer := 1,
    Decom := decom, Host := "h1", Host2 := "", MultiInst := 0 }

/-- The connection side of two states is the same: connection map and ordered
list. -/
def SameConns (st st' : State) : Prop :=
  st'.respconns = st.respconns ∧ st'.resp.Connections = st.resp.Connections

/-- Example database in which the follow-up query for external id 10 fails and
every other query answers as in `twoQmgrSession`. -/
def failingFollowUpSession : Session :=
  { run := fun i q =>
      if q = followUpQuery 10 then .error "connection lost" else twoQmgrSession.run i q }

/-- Example database in which every query fails. -/
def failingSession : Session := { run := fun _ _ => .error "connection lost" }

/-- The state with the flag `IncludeApplications` of its receiver set. -/
def withApplications (flag : Bool) (st : State) : State :=
  { st with m := { st.m with IncludeApplications := flag } }

/-- The same on an outcome. -/
def withApplicationsOutcome (flag : Bool) (r : State × Status) : State × Status :=
  (withApplications flag r.1, r.2)

/-- A record with the nodes taken out of its first value: a path keeps its
relationships and loses its nodes, a bare node becomes a path without
nodes and relationships; anything else stays. -/
def withoutNodes : Record → Record
  | .path _ relationships :: vs => .path [] relationships :: vs
  | .node _ :: vs => .path [] [] :: vs
  | values => values

/-- A session whose every answer has the nodes taken out of its records. -/
def withoutNodesSession (session : Session) : Session :=
  { run := fun i q =>
      match session.run i q with
      | .ok records => .ok (records.map withoutNodes)
      | .error e => .error e }

/-- Session of the end-to-end scenario: every query returns the one path. -/
def e2eSession : Session :=
  { run := fun _ _ => .ok [[.path [e2eQmgrNode, e2eAppNode] [e2eRel]]] }

/-! ## Lemmas -/

theorem find?_cons_eq {α : Type} (p : α → Bool) (a : α) (l : List α) :
    (a :: l).find? p = if p a then some a else l.find? p := by
  cases h : p a <;> simp [List.find?, h]

theorem mapGet_mapSet_self {α : Type} (k : Int) (v : α) (m : GoMap α) :
    mapGet k (mapSet k v m) = some v := by
  induction m with
  | nil => simp [mapSet, mapGet]
  | cons hd tl ih =>
    obtain ⟨k', v'⟩ := hd
    by_cases h : k' = k
    · simp [mapSet, mapGet, h]
    · simp [mapSet, mapGet, h, ih]

theorem mapGet_mapSet_ne {α : Type} (k k' : Int) (v : α) (m : GoMap α) (hne : k' ≠ k) :
    mapGet k' (mapSet k v m) = mapGet k' m := by
  induction m with
  | nil => simp [mapSet, mapGet, hne.symm]
  | cons hd tl ih =>
    obtain ⟨k0, v0⟩ := hd
    by_cases h : k0 = k
    · subst h
      simp [mapSet, mapGet, hne.symm]
    · by_cases h2 : k0 = k'
      · subst h2
        simp [mapSet, mapGet, h]
      · simp [mapSet, mapGet, h, h2, ih]

theorem mapGet_eq_none_iff {α : Type} (k : Int) (m : GoMap α) :
    mapGet k m = none ↔ k ∉ mapKeys m := by
  induction m with
  | nil => simp [mapGet, mapKeys]
  | cons hd tl ih =>
    obtain ⟨k0, v0⟩ := hd
    by_cases h : k0 = k
    · simp [mapGet, mapKeys, h]
    · have h' : ¬ k = k0 := fun e => h e.symm
      simp only [mapKeys] at ih
      simp [mapGet, mapKeys, h, h', ih]

theorem mem_mapKeys_mapSet {α : Type} (k k' : Int) (v : α) (m : GoMap α) :
    k' ∈ mapKeys (mapSet k v m) ↔ k' = k ∨ k' ∈ mapKeys m := by
  induction m with
  | nil => simp [mapSet, mapKeys]
  | cons hd tl ih =>
    obtain ⟨k0, v0⟩ := hd
    simp only [mapKeys] at ih
    by_cases h : k0 = k
    · subst h
      simp [mapSet, mapKeys]
    · simp only [mapSet, h, if_false, mapKeys, List.map_cons, List.mem_cons, ih]
      tauto

theorem StoreInv.insert {α : Type} {ident : α → Int} {list : List α} {map : GoMap α}
    (h : StoreInv ident list map) (e : α) (hk : mapGet (ident e) map = none) :
    StoreInv ident (list ++ [e]) (mapSet (ident e) e map) := by
  obtain ⟨hnd, hget, hkeys⟩ := h
  have hfresh : ident e ∉ list.map ident := by
    intro hmem
    obtain ⟨e', he', hid⟩ := List.mem_map.mp hmem
    have := hget e' he'
    rw [hid, hk] at this
    exact Option.noConfusion this
  refine ⟨?_, ?_, ?_⟩
  · rw [List.map_append, List.nodup_append]
    refine ⟨hnd, by simp, ?_⟩
    intro a ha hb
    simp only [List.map_cons, List.map_nil, List.mem_singleton] at hb
    subst hb
    exact hfresh ha
  · intro e' he'
    rcases List.mem_append.mp he' with h1 | h1
    · have hne : ident e' ≠ ident e := by
        intro heq
        exact hfresh (heq ▸ List.mem_map_of_mem ident h1)
      rw [mapGet_mapSet_ne _ _ _ _ hne]
      exact hget e' h1
    · simp only [List.mem_singleton] at h1
      subst h1
      exact mapGet_mapSet_self _ _ _
  · intro k hkm
    rw [mem_mapKeys_mapSet] at hkm
    rw [List.map_append, List.mem_append]
    rcases hkm with h1 | h1
    · right; simp [h1]
    · left; exact hkeys k h1

theorem buildQueueManager_ok {node : Node} {m : Match} {qm : QueueManager}
    (h : buildQueueManager node m = .ok qm) : qm.ID = node.id ∧ qm.Layer = m.Layer := by
  simp only [buildQueueManager] at h
  repeat' split at h
  all_goals first | exact Except.noConfusion h | (cases h; exact ⟨rfl, rfl⟩)

theorem buildApplication_ok {node : Node} {m : Match} {app : Application}
    (h : buildApplication node m = .ok app) : app.ID = node.id ∧ app.Layer = m.Layer := by
  simp only [buildApplication] at h
  repeat' split at h
  all_goals first | exact Except.noConfusion h | (cases h; exact ⟨rfl, rfl⟩)

theorem Grows.stay (st : State) : Grows st st :=
  ⟨rfl, rfl, ⟨[], by simp⟩, ⟨[], by simp⟩, ⟨[], by simp⟩, fun _ _ h => h, fun h => h⟩

theorem Grows.andThen {a b c : State} (h1 : Grows a b) (h2 : Grows b c) : Grows a c := by
  obtain ⟨q1, hq1, hl1⟩ := h1.qms
  obtain ⟨q2, hq2, hl2⟩ := h2.qms
  obtain ⟨a1, ha1, hal1⟩ := h1.apps
  obtain ⟨a2, ha2, hal2⟩ := h2.apps
  obtain ⟨c1, hc1⟩ := h1.conns
  obtain ⟨c2, hc2⟩ := h2.conns
  refine ⟨h2.m_eq.trans h1.m_eq, h2.issued_eq.trans h1.issued_eq, ⟨q1 ++ q2, ?_, ?_⟩,
    ⟨a1 ++ a2, ?_, ?_⟩, ⟨c1 ++ c2, ?_⟩, fun k v h => h2.qmap k v (h1.qmap k v h),
    fun h => h2.inv (h1.inv h)⟩
  · rw [hq2, hq1, List.append_assoc]
  · intro q hq
    rcases List.mem_append.mp hq with h | h
    · exact hl1 q h
    · rw [hl2 q h, h1.m_eq]
  · rw [ha2, ha1, List.append_assoc]
  · intro q hq
    rcases List.mem_append.mp hq with h | h
    · exact hal1 q h
    · rw [hal2 q h, h1.m_eq]
  · rw [hc2, hc1, List.append_assoc]

theorem processQueueManagerNode_grows (st : State) (node : Node) :
    Grows st (processQueueManagerNode st node).1 := by
  unfold processQueueManagerNode
  split
  · exact Grows.stay st
  · rename_i qm hqm
    split
    · exact Grows.stay st
    · rename_i hnone
      obtain ⟨hid, hlayer⟩ := buildQueueManager_ok hqm
      refine ⟨rfl, rfl, ⟨[qm], rfl, ?_⟩, ⟨[], by simp⟩, ⟨[], by simp⟩, ?_, ?_⟩
      · intro q hq
        simp only [List.mem_singleton] at hq
        rw [hq, hlayer]
      · intro k v hkv
        have hne : k ≠ node.id := by
          intro e
          rw [e, hnone] at hkv
          exact Option.noConfusion hkv
        show mapGet k (mapSet node.id qm st.respqmgr) = some v
        rw [mapGet_mapSet_ne _ _ _ _ hne]
        exact hkv
      · intro hinv
        refine ⟨?_, hinv.2.1, hinv.2.2⟩
        have := StoreInv.insert hinv.1 qm (by rw [hid]; exact hnone)
        rw [hid] at this
        exact this

theorem processApplicationNode_grows (st : State) (node : Node) :
    Grows st (processApplicationNode st node).1 := by
  unfold processApplicationNode
  split
  · exact Grows.stay st
  · rename_i app happ
    split
    · exact Grows.stay st
    · rename_i hnone
      obtain ⟨hid, hlayer⟩ := buildApplication_ok happ
      refine ⟨rfl, rfl, ⟨[], by simp⟩, ⟨[app], rfl, ?_⟩, ⟨[], by simp⟩, fun _ _ h => h, ?_⟩
      · intro q hq
        simp only [List.mem_singleton] at hq
        rw [hq, hlayer]
      · intro hinv
        refine ⟨hinv.1, ?_, hinv.2.2⟩
        have := StoreInv.insert hinv.2.1 app (by rw [hid]; exact hnone)
        rw [hid] at this
        exact this

theorem processNode_grows (st : State) (node : Node) :
    Grows st (processNode st node).1 := by
  unfold processNode
  split
  · exact Grows.stay st
  · split
    · exact processQueueManagerNode_grows st node
    · split
      · exact processApplicationNode_grows st node
      · exact Grows.stay st

theorem processNodes_grows (nodes : List Node) (st : State) :
    Grows st (processNodes nodes st).1 := by
  induction nodes generalizing st with
  | nil => exact Grows.stay st
  | cons node rest ih =>
    unfold processNodes
    have h1 := processNode_grows st node
    split
    · rename_i st1 heq
      rw [heq] at h1
      exact h1.andThen (ih st1)
    · rename_i st1 s hs heq
      rw [heq] at h1
      exact h1

theorem processRelationship_grows (st : State) (rel : Relationship) :
    Grows st (processRelationship st rel) := by
  unfold processRelationship
  simp only
  split
  · exact Grows.stay st
  · rename_i hnone
    refine ⟨rfl, rfl, ⟨[], by simp⟩, ⟨[], by simp⟩, ⟨[_], rfl⟩, fun _ _ h => h, ?_⟩
    intro hinv
    exact ⟨hinv.1, hinv.2.1, StoreInv.insert hinv.2.2 _ hnone⟩

theorem processRelationships_grows (rels : List Relationship) (st : State) :
    Grows st (processRelationships rels st) := by
  induction rels generalizing st with
  | nil => exact Grows.stay st
  | cons rel rest ih =>
    unfold processRelationships
    exact (processRelationship_grows st rel).andThen (ih _)

theorem processRecords_grows (b : Bool) (nodes : List Node) (records : List Record) (st : State) :
    Grows st (processRecords b nodes records st).1 := by
  induction records generalizing st nodes with
  | nil => exact Grows.stay st
  | cons values more ih =>
    unfold processRecords
    split
    · exact Grows.stay st
    · exact Grows.stay st
    · simp only
      split
      · exact ih _ _
      · rename_i n _ hb
        have h1 := processNodes_grows (nodes ++ [n]) st
        split
        · rename_i st1 heq
          rw [heq] at h1
          exact h1.andThen (ih _ _)
        · rename_i st1 s hs heq
          rw [heq] at h1
          exact h1
    · rename_i pnodes rels _
      split
      · exact (processRelationships_grows rels st).andThen (ih _ _)
      · have h1 := processNodes_grows pnodes st
        split
        · rename_i st1 heq
          rw [heq] at h1
          exact h1.andThen ((processRelationships_grows rels st1).andThen (ih _ _))
        · rename_i st1 s hs heq
          rw [heq] at h1
          exact h1

theorem runQueryOnCurrentNode_grows (session : Session) (st : State) (b : Bool) :
    Grows { st with issued := st.issued ++ [st.m.Neo4jQuery] }
      (runQueryOnCurrentNode session st b).1 := by
  unfold runQueryOnCurrentNode
  simp only
  split
  · exact Grows.stay _
  · exact processRecords_grows _ _ _ _

theorem filter_ident_length_one {α : Type} (ident : α → Int) (l : List α) (k : Int)
    (hnd : (l.map ident).Nodup) (hk : k ∈ l.map ident) :
    (l.filter (fun e => decide (ident e = k))).length = 1 := by
  induction l with
  | nil => simp at hk
  | cons a tl ih =>
    rw [List.map_cons, List.nodup_cons] at hnd
    by_cases ha : ident a = k
    · have hnone : tl.filter (fun e => decide (ident e = k)) = [] := by
        rw [List.filter_eq_nil_iff]
        intro e he hek
        have hek' : ident e = k := of_decide_eq_true hek
        exact hnd.1 (by rw [ha, ← hek']; exact List.mem_map_of_mem ident he)
      simp [List.filter, ha, hnone]
    · have hk' : k ∈ tl.map ident := by
        rcases List.mem_cons.mp hk with h | h
        · exact absurd h.symm ha
        · exact h
      simp [List.filter, ha, ih hnd.2 hk']

theorem mapKeys_of_mapGet {α : Type} {k : Int} {v : α} {m : GoMap α}
    (h : mapGet k m = some v) : k ∈ mapKeys m := by
  by_contra hc
  rw [← mapGet_eq_none_iff] at hc
  rw [hc] at h
  exact Option.noConfusion h

theorem processQueueManagerNode_present {st st1 : State} {n : Node}
    (h : processQueueManagerNode st n = (st1, .ok)) :
    ∃ q, mapGet n.id st1.respqmgr = some q := by
  unfold processQueueManagerNode at h
  split at h
  · cases h
  · split at h
    · rename_i q hq
      cases h
      exact ⟨q, hq⟩
    · cases h
      exact ⟨_, mapGet_mapSet_self _ _ _⟩

theorem processQueueManagerNode_noop (st : State) {n : Node} {q : QueueManager}
    (h : mapGet n.id st.respqmgr = some q) : (processQueueManagerNode st n).1 = st := by
  unfold processQueueManagerNode
  split
  · rfl
  · rw [h]

theorem processQueueManagerNode_fresh {st st1 : State} {n : Node}
    (h : processQueueManagerNode st n = (st1, .ok)) (hnone : mapGet n.id st.respqmgr = none) :
    ∃ qm, buildQueueManager n st.m = .ok qm
      ∧ st1.resp.QueueManagers = st.resp.QueueManagers ++ [qm] := by
  unfold processQueueManagerNode at h
  split at h
  · cases h
  · rename_i qm hqm
    rw [hnone] at h
    cases h
    exact ⟨qm, hqm, rfl⟩

theorem processApplicationNode_present {st st1 : State} {n : Node}
    (h : processApplicationNode st n = (st1, .ok)) :
    ∃ q, mapGet n.id st1.respapp = some q := by
  unfold processApplicationNode at h
  split at h
  · cases h
  · split at h
    · rename_i q hq
      cases h
      exact ⟨q, hq⟩
    · cases h
      exact ⟨_, mapGet_mapSet_self _ _ _⟩

theorem processApplicationNode_noop (st : State) {n : Node} {q : Application}
    (h : mapGet n.id st.respapp = some q) : (processApplicationNode st n).1 = st := by
  unfold processApplicationNode
  split
  · rfl
  · rw [h]

theorem processApplicationNode_fresh {st st1 : State} {n : Node}
    (h : processApplicationNode st n = (st1, .ok)) (hnone : mapGet n.id st.respapp = none) :
    ∃ app, buildApplication n st.m = .ok app
      ∧ st1.resp.Applications = st.resp.Applications ++ [app] := by
  unfold processApplicationNode at h
  split at h
  · cases h
  · rename_i app happ
    rw [hnone] at h
    cases h
    exact ⟨app, happ, rfl⟩

theorem processRelationship_present (st : State) (r : Relationship) :
    ∃ c, mapGet r.id (processRelationship st r).respconns = some c := by
  unfold processRelationship
  simp only
  split
  · rename_i c hc
    exact ⟨c, hc⟩
  · exact ⟨_, mapGet_mapSet_self _ _ _⟩

theorem processRelationship_noop {st : State} {r : Relationship} {c : Connection}
    (h : mapGet r.id st.respconns = some c) : processRelationship st r = st := by
  unfold processRelationship
  simp only
  rw [h]

theorem processRelationship_fresh {st : State} {r : Relationship}
    (hnone : mapGet r.id st.respconns = none) :
    (processRelationship st r).resp.Connections = st.resp.Connections ++ [connectionOf r] := by
  unfold processRelationship
  simp only
  rw [hnone]
  rfl

theorem fresh_entry_unique {α : Type} {ident : α → Int} {list : List α} {map : GoMap α}
    (h : StoreInv ident list map) {e q : α} (hnone : mapGet (ident e) map = none)
    (hq : q ∈ list ++ [e]) (hid : ident q = ident e) : q = e := by
  rcases List.mem_append.mp hq with h1 | h1
  · have := h.2.1 q h1
    rw [hid, hnone] at this
    exact Option.noConfusion this
  · exact List.mem_singleton.mp h1

theorem followUp_inv (session : Session) (st : State) (node : QueueManager) (h : Inv st) :
    Inv (followUp session st node).1 := by
  unfold followUp
  simp only
  have hg := runQueryOnCurrentNode_grows session
    { st with m := { st.m with Neo4jQuery := followUpQuery node.QmgrID, Layer := st.m.Layer + 1 } }
    st.m.IncludeNodes
  have := hg.inv h
  split
  · rename_i st2 p heq
    rw [heq] at this
    exact this
  · rename_i st2 s hs heq
    rw [heq] at this
    exact this

theorem rangeLoop_inv (session : Session) (order visited : List Int) (st : State)
    (r : State × Status) (h : Inv st) (hr : rangeLoop session order visited st = some r) :
    Inv r.1 := by
  induction order generalizing visited st with
  | nil =>
    simp only [rangeLoop] at hr
    cases hr
    exact h
  | cons k rest ih =>
    simp only [rangeLoop] at hr
    split at hr
    · cases hr
    · split at hr
      · cases hr
      · rename_i node hnode
        have hf := followUp_inv session st node h
        split at hr
        · rename_i st1 heq
          rw [heq] at hf
          exact ih _ _ hf hr
        · rename_i st1 s hs heq
          rw [heq] at hf
          cases hr
          exact hf

theorem initState_inv (m : Match) : Inv (initState m) := by
  refine ⟨⟨?_, ?_, ?_⟩, ⟨?_, ?_, ?_⟩, ⟨?_, ?_, ?_⟩⟩ <;> simp [initState, mapKeys]

theorem runQueryOnCurrentNode_inv (session : Session) (st : State) (b : Bool) (h : Inv st) :
    Inv (runQueryOnCurrentNode session st b).1 :=
  (runQueryOnCurrentNode_grows session st b).inv h

theorem SameNodes.unchanged (st : State) : SameNodes st st := ⟨rfl, rfl, rfl, rfl⟩

theorem SameNodes.followedBy {a b c : State} (h1 : SameNodes a b) (h2 : SameNodes b c) :
    SameNodes a c :=
  ⟨h2.1.trans h1.1, h2.2.1.trans h1.2.1, h2.2.2.1.trans h1.2.2.1, h2.2.2.2.trans h1.2.2.2⟩

theorem processRelationship_sameNodes (st : State) (rel : Relationship) :
    SameNodes st (processRelationship st rel) := by
  unfold processRelationship
  simp only
  split
  · exact SameNodes.unchanged st
  · exact ⟨rfl, rfl, rfl, rfl⟩

theorem processRelationships_sameNodes (rels : List Relationship) (st : State) :
    SameNodes st (processRelationships rels st) := by
  induction rels generalizing st with
  | nil => exact SameNodes.unchanged st
  | cons rel rest ih =>
    unfold processRelationships
    exact (processRelationship_sameNodes st rel).followedBy (ih _)

theorem processRecords_true_sameNodes (nodes : List Node) (records : List Record) (st : State) :
    SameNodes st (processRecords true nodes records st).1 := by
  induction records generalizing st nodes with
  | nil => exact SameNodes.unchanged st
  | cons values more ih =>
    unfold processRecords
    split
    · exact SameNodes.unchanged st
    · exact SameNodes.unchanged st
    · simp only [if_true]
      exact ih _ _
    · simp only [if_true]
      exact (processRelationships_sameNodes _ st).followedBy (ih _ _)

theorem runQueryOnCurrentNode_true_sameNodes (session : Session) (st : State) :
    SameNodes st (runQueryOnCurrentNode session st true).1 := by
  unfold runQueryOnCurrentNode
  simp only
  split
  · exact ⟨rfl, rfl, rfl, rfl⟩
  · have := processRecords_true_sameNodes []
      (by assumption) { st with issued := st.issued ++ [st.m.Neo4jQuery] }
    exact this

theorem followUp_fst (session : Session) (st : State) (node : QueueManager) :
    (followUp session st node).1
      = (runQueryOnCurrentNode session
          { st with m := { st.m with Neo4jQuery := followUpQuery node.QmgrID,
                                     Layer := st.m.Layer + 1 } } st.m.IncludeNodes).1 := by
  unfold followUp
  simp only
  split
  · rename_i st2 p heq
    rw [heq]
  · rename_i st2 s hs heq
    rw [heq]

theorem followUp_grows (session : Session) (st : State) (node : QueueManager) :
    Grows { st with m := { st.m with Neo4jQuery := followUpQuery node.QmgrID,
                                     Layer := st.m.Layer + 1 },
                    issued := st.issued ++ [followUpQuery node.QmgrID] }
      (followUp session st node).1 := by
  rw [followUp_fst]
  exact runQueryOnCurrentNode_grows session
    { st with m := { st.m with Neo4jQuery := followUpQuery node.QmgrID,
                               Layer := st.m.Layer + 1 } } st.m.IncludeNodes

theorem followUp_issued (session : Session) (st : State) (node : QueueManager) :
    (followUp session st node).1.issued = st.issued ++ [followUpQuery node.QmgrID] :=
  (followUp_grows session st node).issued_eq

theorem followUp_m (session : Session) (st : State) (node : QueueManager) :
    (followUp session st node).1.m
      = { st.m with Neo4jQuery := followUpQuery node.QmgrID, Layer := st.m.Layer + 1 } :=
  (followUp_grows session st node).m_eq

theorem followUp_qmap (session : Session) (st : State) (node : QueueManager) (k : Int)
    (v : QueueManager) (h : mapGet k st.respqmgr = some v) :
    mapGet k (followUp session st node).1.respqmgr = some v :=
  (followUp_grows session st node).qmap k v h

theorem followUp_sameNodes (session : Session) (st : State) (node : QueueManager)
    (h : st.m.IncludeNodes = true) : SameNodes st (followUp session st node).1 := by
  rw [followUp_fst, h]
  exact runQueryOnCurrentNode_true_sameNodes session _

theorem followUp_congr (session : Session) (st : State) (a b : QueueManager)
    (h : followUpQuery a.QmgrID = followUpQuery b.QmgrID) :
    followUp session st a = followUp session st b := by
  unfold followUp
  rw [h]

theorem followUpTexts_cons_of_get {map : GoMap QueueManager} {k : Int} {q : QueueManager}
    (h : mapGet k map = some q) (rest : List Int) :
    followUpTexts map (k :: rest) = followUpQuery q.QmgrID :: followUpTexts map rest := by
  simp [followUpTexts, List.filterMap_cons, h]

theorem rangeLoop_ok_facts (session : Session) (order visited : List Int) (st st' : State)
    (h : rangeLoop session order visited st = some (st', .ok)) :
    st'.issued = st.issued ++ followUpTexts st'.respqmgr order
    ∧ order.Nodup
    ∧ (∀ k ∈ order, k ∉ visited)
    ∧ (∀ k ∈ order, k ∈ mapKeys st'.respqmgr)
    ∧ (∀ k v, mapGet k st.respqmgr = some v → mapGet k st'.respqmgr = some v)
    ∧ (st.m.IncludeNodes = true → SameNodes st st')
    ∧ st'.m.Layer = st.m.Layer + order.length
    ∧ st'.m.IncludeNodes = st.m.IncludeNodes := by
  induction order generalizing visited st with
  | nil =>
    simp only [rangeLoop] at h
    cases h
    refine ⟨by simp [followUpTexts], List.nodup_nil, by simp, by simp, fun _ _ h => h,
      fun _ => SameNodes.unchanged _, by simp, rfl⟩
  | cons k rest ih =>
    simp only [rangeLoop] at h
    split at h
    · cases h
    · rename_i hvis
      split at h
      · cases h
      · rename_i node hnode
        have hiss := followUp_issued session st node
        have hm := followUp_m session st node
        have hq := followUp_qmap session st node
        have hs := followUp_sameNodes session st node
        split at h
        · rename_i st1 heq
          rw [heq] at hiss hm hq hs
          obtain ⟨i1, i2, i3, i4, i5, i6, i7, i8⟩ := ih _ _ h
          have hk' : mapGet k st'.respqmgr = some node := i5 k node (hq k node hnode)
          refine ⟨?_, ?_, ?_, ?_, ?_, ?_, ?_, ?_⟩
          · rw [i1, hiss, followUpTexts_cons_of_get hk', List.append_assoc]
            rfl
          · rw [List.nodup_cons]
            exact ⟨fun hmem => i3 k hmem (List.mem_cons_self _ _), i2⟩
          · intro k' hk'mem
            rcases List.mem_cons.mp hk'mem with e | e
            · rw [e]; exact hvis
            · exact fun hv => i3 k' e (List.mem_cons_of_mem _ hv)
          · intro k' hk'mem
            rcases List.mem_cons.mp hk'mem with e | e
            · rw [e]; exact mapKeys_of_mapGet hk'
            · exact i4 k' e
          · intro k' v hv
            exact i5 k' v (hq k' v hv)
          · intro hinc
            have hinc1 : st1.m.IncludeNodes = true := by rw [hm]; exact hinc
            exact (hs hinc).followedBy (i6 hinc1)
          · rw [i7, hm]
            simp only [List.length_cons]
            push_cast
            ring
          · rw [i8, hm]
        · rename_i st1 s hs' heq
          cases h
          exact absurd rfl hs'

theorem rangeLoop_issued_ext (session : Session) (order visited : List Int) (st : State)
    (r : State × Status) (h : rangeLoop session order visited st = some r) :
    ∃ ext, r.1.issued = st.issued ++ ext := by
  induction order generalizing visited st with
  | nil =>
    simp only [rangeLoop] at h
    cases h
    exact ⟨[], by simp⟩
  | cons k rest ih =>
    simp only [rangeLoop] at h
    split at h
    · cases h
    · split at h
      · cases h
      · rename_i node hnode
        have hiss := followUp_issued session st node
        split at h
        · rename_i st1 heq
          rw [heq] at hiss
          obtain ⟨ext, hext⟩ := ih _ _ h
          exact ⟨followUpQuery node.QmgrID :: ext, by rw [hext, hiss, List.append_assoc]; rfl⟩
        · rename_i st1 s hs' heq
          rw [heq] at hiss
          cases h
          exact ⟨[followUpQuery node.QmgrID], hiss⟩

theorem rangeLoop_same_issued (session : Session) (o1 o2 v1 v2 : List Int) (st : State)
    (r1 r2 : State × Status) (h1 : rangeLoop session o1 v1 st = some r1)
    (h2 : rangeLoop session o2 v2 st = some r2) (hi : r1.1.issued = r2.1.issued) :
    r1 = r2 := by
  induction o1 generalizing o2 v1 v2 st with
  | nil =>
    simp only [rangeLoop] at h1
    cases h1
    cases o2 with
    | nil =>
      simp only [rangeLoop] at h2
      cases h2
      rfl
    | cons k2 rest2 =>
      exfalso
      simp only [rangeLoop] at h2
      split at h2
      · cases h2
      · split at h2
        · cases h2
        · rename_i node hnode
          have hiss := followUp_issued session st node
          split at h2
          · rename_i st1 heq
            rw [heq] at hiss
            obtain ⟨ext, hext⟩ := rangeLoop_issued_ext _ _ _ _ _ h2
            rw [hext, hiss] at hi
            have := congrArg List.length hi
            simp at this
          · rename_i st1 s hs' heq
            rw [heq] at hiss
            cases h2
            rw [hiss] at hi
            have := congrArg List.length hi
            simp at this
  | cons k1 rest1 ih =>
    simp only [rangeLoop] at h1
    split at h1
    · cases h1
    · split at h1
      · cases h1
      · rename_i node1 hnode1
        have hiss1 := followUp_issued session st node1
        cases o2 with
        | nil =>
          exfalso
          simp only [rangeLoop] at h2
          cases h2
          split at h1
          · rename_i st1 heq
            rw [heq] at hiss1
            obtain ⟨ext, hext⟩ := rangeLoop_issued_ext _ _ _ _ _ h1
            rw [hext, hiss1] at hi
            have := congrArg List.length hi
            simp at this
          · rename_i st1 s hs' heq
            rw [heq] at hiss1
            cases h1
            rw [hiss1] at hi
            have := congrArg List.length hi
            simp at this
        | cons k2 rest2 =>
          simp only [rangeLoop] at h2
          split at h2
          · cases h2
          · split at h2
            · cases h2
            · rename_i node2 hnode2
              have hiss2 := followUp_issued session st node2
              have e1 : ∃ x1, r1.1.issued = st.issued ++ followUpQuery node1.QmgrID :: x1 := by
                split at h1
                · rename_i st1 heq
                  rw [heq] at hiss1
                  obtain ⟨ext, hext⟩ := rangeLoop_issued_ext _ _ _ _ _ h1
                  exact ⟨ext, by rw [hext, hiss1, List.append_assoc]; rfl⟩
                · rename_i st1 s hs' heq
                  rw [heq] at hiss1
                  cases h1
                  exact ⟨[], hiss1⟩
              have e2 : ∃ x2, r2.1.issued = st.issued ++ followUpQuery node2.QmgrID :: x2 := by
                split at h2
                · rename_i st1 heq
                  rw [heq] at hiss2
                  obtain ⟨ext, hext⟩ := rangeLoop_issued_ext _ _ _ _ _ h2
                  exact ⟨ext, by rw [hext, hiss2, List.append_assoc]; rfl⟩
                · rename_i st1 s hs' heq
                  rw [heq] at hiss2
                  cases h2
                  exact ⟨[], hiss2⟩
              obtain ⟨x1, hx1⟩ := e1
              obtain ⟨x2, hx2⟩ := e2
              rw [hx1, hx2] at hi
              have htxt : followUpQuery node1.QmgrID = followUpQuery node2.QmgrID := by
                have := List.append_cancel_left hi
                exact (List.cons.inj this).1
              rw [← followUp_congr session st node1 node2 htxt] at h2
              split at h1
              · rename_i st1 heq
                rw [heq] at h2
                simp only at h2
                rw [← hx1, ← hx2] at hi
                exact ih _ _ _ _ h1 h2
              · rename_i st1 s hs' heq
                rw [heq] at h2
                cases h1
                split at h2
                · rename_i st1' heq'
                  exact absurd (Prod.mk.inj heq').2 hs'
                · rename_i st1' s' hs'' heq'
                  cases heq'
                  cases h2
                  rfl

theorem rootRound_facts (session : Session) (m : Match) :
    (rootRound session m).1.issued = [m.Neo4jQuery]
    ∧ (rootRound session m).1.m = { m with Layer := 1 }
    ∧ Inv (rootRound session m).1 := by
  have hg := runQueryOnCurrentNode_grows session
    { initState m with m := { m with Layer := 1 } } false
  exact ⟨hg.issued_eq, hg.m_eq, hg.inv (initState_inv m)⟩

theorem RunQuery_expansion {driver : Driver} {session : Session} {order : List Int} {m : Match}
    {r : State × Status} (hd : driver.newSession = .ok session) (hL : 2 ≤ m.Layer)
    (hroot : (rootRound session m).2 = .ok) (hr : RunQuery driver order m = some r) :
    rangeLoop session order [] (rootRound session m).1 = some r
    ∧ ∀ k ∈ mapKeys (rootRound session m).1.respqmgr, k ∈ order := by
  unfold RunQuery at hr
  rw [hd] at hr
  simp only at hr
  have hm := (rootRound_facts session m).2.1
  unfold rootRound at hroot hm
  unfold rootRound
  split at hr
  · rename_i st1 heq
    rw [heq] at hm
    simp only at hm
    have hgt : m.Layer > st1.m.Layer := by rw [hm]; simp only; omega
    rw [if_pos hgt] at hr
    split at hr
    · rename_i hall
      rw [heq]
      refine ⟨hr, ?_⟩
      intro k hk
      have := List.all_eq_true.mp hall k hk
      exact of_decide_eq_true this
    · cases hr
  · rename_i st1 s hs heq
    rw [heq] at hroot
    exact absurd hroot hs

theorem RunQuery_root_not_ok {driver : Driver} {session : Session} (order : List Int)
    (m : Match) (hd : driver.newSession = .ok session) (hroot : (rootRound session m).2 ≠ .ok) :
    RunQuery driver order m = some (rootRound session m) := by
  unfold RunQuery
  rw [hd]
  simp only
  unfold rootRound at hroot
  unfold rootRound
  split
  · rename_i st1 heq
    rw [heq] at hroot
    exact absurd rfl hroot
  · rename_i st1 s hs heq
    rw [heq]

theorem RunQuery_no_expansion {driver : Driver} {session : Session} {order : List Int} {m : Match}
    (hd : driver.newSession = .ok session) (hL : m.Layer ≤ 1) :
    RunQuery driver order m = some (rootRound session m) := by
  unfold RunQuery
  rw [hd]
  simp only
  have hm := (rootRound_facts session m).2.1
  unfold rootRound at hm
  unfold rootRound
  split
  · rename_i st1 heq
    rw [heq] at hm
    simp only at hm
    have hgt : ¬ m.Layer > st1.m.Layer := by rw [hm]; simp only; omega
    rw [if_neg hgt, heq]
  · rename_i st1 s hs heq
    rw [heq]

theorem followUpTexts_length (map : GoMap QueueManager) (order : List Int)
    (h : ∀ k ∈ order, k ∈ mapKeys map) : (followUpTexts map order).length = order.length := by
  induction order with
  | nil => rfl
  | cons k rest ih =>
    have hk := h k (List.mem_cons_self _ _)
    cases hget : mapGet k map with
    | none => exact absurd hk ((mapGet_eq_none_iff _ _).mp hget)
    | some q =>
      rw [followUpTexts_cons_of_get hget, List.length_cons, List.length_cons,
        ih (fun k' hk' => h k' (List.mem_cons_of_mem _ hk'))]

theorem mapGet_of_mapKeys {α : Type} {k : Int} {m : GoMap α} (h : k ∈ mapKeys m) :
    ∃ v, mapGet k m = some v := by
  cases hget : mapGet k m with
  | none => exact absurd h ((mapGet_eq_none_iff _ _).mp hget)
  | some v => exact ⟨v, rfl⟩

theorem rangeLoop_total (session : Session) (order visited : List Int) (st : State)
    (hkeys : ∀ k ∈ order, k ∈ mapKeys st.respqmgr) (hnd : order.Nodup)
    (hvis : ∀ k ∈ order, k ∉ visited) :
    ∃ r, rangeLoop session order visited st = some r := by
  induction order generalizing visited st with
  | nil => exact ⟨(st, .ok), rfl⟩
  | cons k rest ih =>
    simp only [rangeLoop]
    rw [if_neg (hvis k (List.mem_cons_self _ _))]
    obtain ⟨node, hnode⟩ := mapGet_of_mapKeys (hkeys k (List.mem_cons_self _ _))
    rw [hnode]
    simp only
    have hq := followUp_qmap session st node
    rw [List.nodup_cons] at hnd
    split
    · rename_i st1 heq
      rw [heq] at hq
      apply ih
      · intro k' hk'
        obtain ⟨v, hv⟩ := mapGet_of_mapKeys (hkeys k' (List.mem_cons_of_mem _ hk'))
        exact mapKeys_of_mapGet (hq k' v hv)
      · exact hnd.2
      · intro k' hk' hmem
        rcases List.mem_cons.mp hmem with e | e
        · exact hnd.1 (e ▸ hk')
        · exact hvis k' (List.mem_cons_of_mem _ hk') e
    · exact ⟨_, rfl⟩

/-- For every database and request there is an iteration order the range can
take, so every call has an outcome: the queue managers found by the root
query, in the order of the response. -/
theorem RunQuery_admissible (driver : Driver) (m : Match) :
    ∃ order r, RunQuery driver order m = some r := by
  cases hd : driver.newSession with
  | error e => exact ⟨[], (initState m, .panic .nilDereference), by simp only [RunQuery, hd]⟩
  | ok session =>
    by_cases hroot : (rootRound session m).2 = .ok
    · refine ⟨(rootRound session m).1.resp.QueueManagers.map QueueManager.ID, ?_⟩
      obtain ⟨_, hm, hinv⟩ := rootRound_facts session m
      have hloop := rangeLoop_total session
        ((rootRound session m).1.resp.QueueManagers.map QueueManager.ID) []
        (rootRound session m).1
        (by
          intro k hk
          obtain ⟨q, hq, hqid⟩ := List.mem_map.mp hk
          rw [← hqid]
          exact mapKeys_of_mapGet (hinv.1.2.1 q hq))
        hinv.1.1 (by simp)
      obtain ⟨r, hr⟩ := hloop
      have key : runQueryOnCurrentNode session
          { initState m with m := { m with Layer := 1 } } false = rootRound session m := rfl
      unfold RunQuery
      rw [hd]
      simp only
      rw [key]
      generalize rootRound session m = rr at *
      obtain ⟨st1, s⟩ := rr
      simp only at hroot hr hinv
      subst hroot
      simp only
      split
      · split
        · exact ⟨r, hr⟩
        · rename_i hall
          exfalso
          apply hall
          rw [List.all_eq_true]
          intro k hk
          exact decide_eq_true (hinv.1.2.2 k hk)
      · exact ⟨_, rfl⟩
    · exact ⟨[], _, RunQuery_root_not_ok _ _ hd hroot⟩

theorem KeepsNodes.same (st : State) : KeepsNodes st st :=
  ⟨rfl, fun _ q h => ⟨q, h⟩, fun _ a h => ⟨a, h⟩⟩

theorem KeepsNodes.next {a b c : State} (h1 : KeepsNodes a b) (h2 : KeepsNodes b c) :
    KeepsNodes a c := by
  refine ⟨h2.1.trans h1.1, ?_, ?_⟩
  · intro k q h
    obtain ⟨q', hq'⟩ := h1.2.1 k q h
    exact h2.2.1 k q' hq'
  · intro k q h
    obtain ⟨q', hq'⟩ := h1.2.2 k q h
    exact h2.2.2 k q' hq'

theorem mapGet_mapSet_keeps {α : Type} (k k' : Int) (v v' : α) (m : GoMap α)
    (h : mapGet k' m = some v') : ∃ w, mapGet k' (mapSet k v m) = some w := by
  by_cases hk : k' = k
  · subst hk
    exact ⟨v, mapGet_mapSet_self _ _ _⟩
  · exact ⟨v', by rw [mapGet_mapSet_ne _ _ _ _ hk]; exact h⟩

theorem processQueueManagerNode_keeps (st : State) (node : Node) :
    KeepsNodes st (processQueueManagerNode st node).1 := by
  unfold processQueueManagerNode
  split
  · exact KeepsNodes.same st
  · split
    · exact KeepsNodes.same st
    · exact ⟨rfl, fun k q h => mapGet_mapSet_keeps _ _ _ _ _ h, fun _ a h => ⟨a, h⟩⟩

theorem processApplicationNode_keeps (st : State) (node : Node) :
    KeepsNodes st (processApplicationNode st node).1 := by
  unfold processApplicationNode
  split
  · exact KeepsNodes.same st
  · split
    · exact KeepsNodes.same st
    · exact ⟨rfl, fun _ q h => ⟨q, h⟩, fun k a h => mapGet_mapSet_keeps _ _ _ _ _ h⟩

theorem processNode_keeps (st : State) (node : Node) :
    KeepsNodes st (processNode st node).1 := by
  unfold processNode
  split
  · exact KeepsNodes.same st
  · split
    · exact processQueueManagerNode_keeps st node
    · split
      · exact processApplicationNode_keeps st node
      · exact KeepsNodes.same st

theorem processNodes_keeps (nodes : List Node) (st : State) :
    KeepsNodes st (processNodes nodes st).1 := by
  induction nodes generalizing st with
  | nil => exact KeepsNodes.same st
  | cons node rest ih =>
    unfold processNodes
    have h1 := processNode_keeps st node
    split
    · rename_i st1 heq
      rw [heq] at h1
      exact h1.next (ih st1)
    · rename_i st1 s hs heq
      rw [heq] at h1
      exact h1

theorem processRelationships_keeps (rels : List Relationship) (st : State) :
    KeepsNodes st (processRelationships rels st) := by
  have hg := processRelationships_grows rels st
  have hs := processRelationships_sameNodes rels st
  refine ⟨hg.m_eq, ?_, ?_⟩
  · intro k q h
    exact ⟨q, by rw [hs.1]; exact h⟩
  · intro k a h
    exact ⟨a, by rw [hs.2.1]; exact h⟩

theorem NodeDone.later {st st' : State} {node : Node} (h : NodeDone st node)
    (hk : KeepsNodes st st') : NodeDone st' node := by
  unfold NodeDone at h ⊢
  split
  · rename_i hl
    rw [hl] at h
    exact h
  · rename_i lab0 rest hl
    rw [hl] at h
    simp only at h
    by_cases h1 : lab0 = "QueueManager"
    · rw [if_pos h1] at h ⊢
      obtain ⟨⟨qm, hqm⟩, ⟨q, hq⟩⟩ := h
      exact ⟨⟨qm, by rw [hk.1]; exact hqm⟩, hk.2.1 _ q hq⟩
    · rw [if_neg h1] at h ⊢
      by_cases h2 : lab0 = "Application"
      · rw [if_pos h2] at h ⊢
        obtain ⟨⟨app, happ⟩, ⟨a, ha⟩⟩ := h
        exact ⟨⟨app, by rw [hk.1]; exact happ⟩, hk.2.2 _ a ha⟩
      · rw [if_neg h2]
        trivial

theorem NodeDone.processNode_eq {st : State} {node : Node} (h : NodeDone st node) :
    processNode st node = (st, .ok) := by
  unfold NodeDone at h
  unfold processNode
  split
  · rename_i hl
    rw [hl] at h
    exact absurd h id
  · rename_i lab0 rest hl
    rw [hl] at h
    simp only at h
    by_cases h1 : lab0 = "QueueManager"
    · rw [if_pos h1] at h ⊢
      obtain ⟨⟨qm, hqm⟩, ⟨q, hq⟩⟩ := h
      unfold processQueueManagerNode
      rw [hqm]
      simp only
      rw [hq]
    · rw [if_neg h1] at h ⊢
      by_cases h2 : lab0 = "Application"
      · rw [if_pos h2] at h ⊢
        obtain ⟨⟨app, happ⟩, ⟨a, ha⟩⟩ := h
        unfold processApplicationNode
        rw [happ]
        simp only
        rw [ha]
      · rw [if_neg h2]

theorem processNode_done {st st1 : State} {node : Node}
    (h : processNode st node = (st1, .ok)) : NodeDone st1 node := by
  have hm : st1.m = st.m := by
    have := (processNode_keeps st node).1
    rw [h] at this
    exact this
  unfold processNode at h
  unfold NodeDone
  split at h
  · cases h
  · rename_i lab0 rest hl
    by_cases h1 : lab0 = "QueueManager"
    · rw [if_pos h1] at h ⊢
      obtain ⟨q, hq⟩ := processQueueManagerNode_present h
      refine ⟨?_, q, hq⟩
      rw [hm]
      unfold processQueueManagerNode at h
      split at h
      · cases h
      · rename_i qm hqm
        exact ⟨qm, hqm⟩
    · rw [if_neg h1] at h ⊢
      by_cases h2 : lab0 = "Application"
      · rw [if_pos h2] at h ⊢
        obtain ⟨a, ha⟩ := processApplicationNode_present h
        refine ⟨?_, a, ha⟩
        rw [hm]
        unfold processApplicationNode at h
        split at h
        · cases h
        · rename_i app happ
          exact ⟨app, happ⟩
      · rw [if_neg h2]
        trivial

theorem processNodes_done {nodes : List Node} {st st1 : State}
    (h : processNodes nodes st = (st1, .ok)) : ∀ n ∈ nodes, NodeDone st1 n := by
  induction nodes generalizing st with
  | nil => intro n hn; cases hn
  | cons node rest ih =>
    unfold processNodes at h
    split at h
    · rename_i sta heq
      intro n hn
      rcases List.mem_cons.mp hn with e | e
      · subst e
        have hk := processNodes_keeps rest sta
        rw [h] at hk
        exact (processNode_done heq).later hk
      · exact ih h n e
    · rename_i sta s hs heq
      cases h
      exact absurd rfl hs

theorem processNodes_append_done (nodes more : List Node) (st : State)
    (h : ∀ n ∈ nodes, NodeDone st n) :
    processNodes (nodes ++ more) st = processNodes more st := by
  induction nodes with
  | nil => rfl
  | cons node rest ih =>
    rw [List.cons_append]
    have e : processNodes (node :: (rest ++ more)) st = processNodes (rest ++ more) st := by
      simp only [processNodes, (h node (List.mem_cons_self _ _)).processNode_eq]
    rw [e]
    exact ih (fun n hn => h n (List.mem_cons_of_mem _ hn))

theorem processRecords_eq_naive_from (b : Bool) (records : List Record) (nodes : List Node)
    (st : State) (h : b = false → ∀ n ∈ nodes, NodeDone st n) :
    processRecords b nodes records st = processRecordsNaive b records st := by
  induction records generalizing nodes st with
  | nil => rfl
  | cons values more ih =>
    unfold processRecords processRecordsNaive
    split
    · rfl
    · rfl
    · rename_i n vs
      simp only
      cases b with
      | true =>
        simp only [if_true]
        exact ih _ _ (fun hb => Bool.noConfusion hb)
      | false =>
        simp only [Bool.false_eq_true, if_false]
        rw [processNodes_append_done nodes [n] st (h rfl)]
        cases hp : processNodes [n] st with
        | mk st1 s =>
          cases s with
          | ok =>
            simp only
            apply ih
            intro _ x hx
            rcases List.mem_append.mp hx with e | e
            · have hk := processNodes_keeps [n] st
              rw [hp] at hk
              exact (h rfl x e).later hk
            · exact processNodes_done hp x e
          | err e => rfl
          | panic p => rfl
    · rename_i pnodes rels vs
      cases b with
      | true =>
        simp only [if_true]
        exact ih _ _ (fun hb => Bool.noConfusion hb)
      | false =>
        simp only [Bool.false_eq_true, if_false]
        cases hp : processNodes pnodes st with
        | mk st1 s =>
          cases s with
          | ok =>
            simp only
            apply ih
            intro _ x hx
            exact (processNodes_done hp x hx).later (processRelationships_keeps rels st1)
          | err e => rfl
          | panic p => rfl

theorem processRecords_eq_naive (b : Bool) (records : List Record) (st : State) :
    processRecords b [] records st = processRecordsNaive b records st :=
  processRecords_eq_naive_from b records [] st (fun _ n hn => by cases hn)

theorem processRecordsNaive_bare_eq_path (b : Bool) (before after : List Record) (n : Node)
    (vs : List RecordValue) (st : State) :
    processRecordsNaive b (before ++ (.node n :: vs) :: after) st
      = processRecordsNaive b (before ++ (.path [n] [] :: vs) :: after) st := by
  induction before generalizing st with
  | nil =>
    simp only [List.nil_append]
    unfold processRecordsNaive
    simp only [processRelationships]
  | cons r rest ih =>
    simp only [List.cons_append]
    unfold processRecordsNaive
    split
    · rfl
    · rfl
    · split
      · exact ih _
      · split
        · exact ih _
        · rfl
    · split
      · exact ih _
      · split
        · exact ih _
        · rfl

theorem SameConns.here (st : State) : SameConns st st := ⟨rfl, rfl⟩

theorem SameConns.after {a b c : State} (h1 : SameConns a b) (h2 : SameConns b c) :
    SameConns a c := ⟨h2.1.trans h1.1, h2.2.trans h1.2⟩

theorem processNode_sameConns (st : State) (node : Node) :
    SameConns st (processNode st node).1 := by
  unfold processNode
  split
  · exact SameConns.here st
  · split
    · unfold processQueueManagerNode
      split
      · exact SameConns.here st
      · split
        · exact SameConns.here st
        · exact ⟨rfl, rfl⟩
    · split
      · unfold processApplicationNode
        split
        · exact SameConns.here st
        · split
          · exact SameConns.here st
          · exact ⟨rfl, rfl⟩
      · exact SameConns.here st

theorem processNodes_sameConns (nodes : List Node) (st : State) :
    SameConns st (processNodes nodes st).1 := by
  induction nodes generalizing st with
  | nil => exact SameConns.here st
  | cons node rest ih =>
    unfold processNodes
    have h1 := processNode_sameConns st node
    split
    · rename_i st1 heq
      rw [heq] at h1
      exact h1.after (ih st1)
    · rename_i st1 s hs heq
      rw [heq] at h1
      exact h1

theorem processRelationship_conns_congr (a b : State) (rel : Relationship)
    (h : SameConns a b) : SameConns (processRelationship a rel) (processRelationship b rel) := by
  unfold processRelationship
  simp only
  rw [h.1]
  split
  · exact h
  · exact ⟨by simp only [h.1], by simp only [h.2]⟩

theorem processRelationships_conns_congr (rels : List Relationship) (a b : State)
    (h : SameConns a b) :
    SameConns (processRelationships rels a) (processRelationships rels b) := by
  induction rels generalizing a b with
  | nil => exact h
  | cons rel rest ih =>
    unfold processRelationships
    exact ih _ _ (processRelationship_conns_congr a b rel h)

theorem processRecords_conns_of_ok (records : List Record) (nodes : List Node)
    (stF stT : State) (h : SameConns stF stT)
    (hok : (processRecords false nodes records stF).2 = .ok) :
    (processRecords true nodes records stT).2 = .ok
    ∧ SameConns (processRecords false nodes records stF).1
        (processRecords true nodes records stT).1 := by
  induction records generalizing nodes stF stT with
  | nil => exact ⟨rfl, h⟩
  | cons values more ih =>
    unfold processRecords at hok ⊢
    split
    · simp only at hok
      cases hok
    · simp only at hok
      cases hok
    · rename_i n vs
      simp only [if_true, Bool.false_eq_true, if_false] at hok ⊢
      have hs := processNodes_sameConns (nodes ++ [n]) stF
      cases hp : processNodes (nodes ++ [n]) stF with
      | mk st1 s =>
        rw [hp] at hok hs
        cases s with
        | ok =>
          simp only at hok ⊢
          exact ih _ _ _ ⟨h.1.trans hs.1.symm, h.2.trans hs.2.symm⟩ hok
        | err e => simp only at hok; cases hok
        | panic p => simp only at hok; cases hok
    · rename_i pnodes rels vs
      simp only [if_true, Bool.false_eq_true, if_false] at hok ⊢
      have hs := processNodes_sameConns pnodes stF
      cases hp : processNodes pnodes stF with
      | mk st1 s =>
        rw [hp] at hok hs
        cases s with
        | ok =>
          simp only at hok ⊢
          exact ih _ _ _ (processRelationships_conns_congr rels st1 stT
            ⟨h.1.trans hs.1.symm, h.2.trans hs.2.symm⟩) hok
        | err e => simp only at hok; cases hok
        | panic p => simp only at hok; cases hok

theorem processRecords_true_status (records : List Record) (nodes : List Node) (st : State) :
    (processRecords true nodes records st).2 = .ok
    ∨ (processRecords true nodes records st).2 = .panic .indexOutOfRange
    ∨ ∃ t, (processRecords true nodes records st).2
        = .panic (.interfaceConversion t "neo4j.Node") := by
  induction records generalizing nodes st with
  | nil => exact Or.inl rfl
  | cons values more ih =>
    unfold processRecords
    split
    · exact Or.inr (Or.inl rfl)
    · rename_i t vs
      exact Or.inr (Or.inr ⟨t, rfl⟩)
    · simp only [if_true]
      exact ih _ _
    · simp only [if_true]
      exact ih _ _

theorem processNode_no_err (st : State) (node : Node) (e : GoError) :
    (processNode st node).2 ≠ .err e := by
  unfold processNode
  split
  · intro h; cases h
  · split
    · unfold processQueueManagerNode
      split
      · intro h; cases h
      · split <;> (intro h; cases h)
    · split
      · unfold processApplicationNode
        split
        · intro h; cases h
        · split <;> (intro h; cases h)
      · intro h; cases h

theorem processNodes_no_err (nodes : List Node) (st : State) (e : GoError) :
    (processNodes nodes st).2 ≠ .err e := by
  induction nodes generalizing st with
  | nil => intro h; cases h
  | cons node rest ih =>
    unfold processNodes
    have h1 := processNode_no_err st node e
    split
    · exact ih _
    · rename_i st1 s hs heq
      rw [heq] at h1
      exact h1

theorem processRecords_no_err (b : Bool) (records : List Record) (nodes : List Node)
    (st : State) (e : GoError) : (processRecords b nodes records st).2 ≠ .err e := by
  induction records generalizing nodes st with
  | nil => intro h; cases h
  | cons values more ih =>
    unfold processRecords
    split
    · intro h; cases h
    · intro h; cases h
    · rename_i n vs
      simp only
      split
      · exact ih _ _
      · have h1 := processNodes_no_err (nodes ++ [n]) st e
        split
        · exact ih _ _
        · rename_i st1 s hs heq
          rw [heq] at h1
          exact h1
    · rename_i pnodes rels vs
      split
      · exact ih _ _
      · have h1 := processNodes_no_err pnodes st e
        split
        · exact ih _ _
        · rename_i st1 s hs heq
          rw [heq] at h1
          exact h1

theorem processQueueManagerNode_flag (flag : Bool) (st : State) (node : Node) :
    processQueueManagerNode (withApplications flag st) node
      = withApplicationsOutcome flag (processQueueManagerNode st node) := by
  unfold processQueueManagerNode
  have hb : buildQueueManager node (withApplications flag st).m = buildQueueManager node st.m :=
    rfl
  rw [hb]
  split
  · rfl
  · have hg : mapGet node.id (withApplications flag st).respqmgr = mapGet node.id st.respqmgr :=
      rfl
    rw [hg]
    split <;> rfl

theorem processApplicationNode_flag (flag : Bool) (st : State) (node : Node) :
    processApplicationNode (withApplications flag st) node
      = withApplicationsOutcome flag (processApplicationNode st node) := by
  unfold processApplicationNode
  have hb : buildApplication node (withApplications flag st).m = buildApplication node st.m :=
    rfl
  rw [hb]
  split
  · rfl
  · have hg : mapGet node.id (withApplications flag st).respapp = mapGet node.id st.respapp :=
      rfl
    rw [hg]
    split <;> rfl

theorem processNode_flag (flag : Bool) (st : State) (node : Node) :
    processNode (withApplications flag st) node
      = withApplicationsOutcome flag (processNode st node) := by
  unfold processNode
  split
  · rfl
  · split
    · exact processQueueManagerNode_flag flag st node
    · split
      · exact processApplicationNode_flag flag st node
      · rfl

theorem processNodes_flag (flag : Bool) (nodes : List Node) (st : State) :
    processNodes nodes (withApplications flag st)
      = withApplicationsOutcome flag (processNodes nodes st) := by
  induction nodes generalizing st with
  | nil => rfl
  | cons node rest ih =>
    unfold processNodes
    rw [processNode_flag]
    cases hp : processNode st node with
    | mk st1 s =>
      cases s with
      | ok => exact ih st1
      | err e => rfl
      | panic p => rfl

theorem processRelationship_flag (flag : Bool) (st : State) (rel : Relationship) :
    processRelationship (withApplications flag st) rel
      = withApplications flag (processRelationship st rel) := by
  unfold processRelationship
  simp only
  have hg : mapGet rel.id (withApplications flag st).respconns = mapGet rel.id st.respconns :=
    rfl
  rw [hg]
  split <;> rfl

theorem processRelationships_flag (flag : Bool) (rels : List Relationship) (st : State) :
    processRelationships rels (withApplications flag st)
      = withApplications flag (processRelationships rels st) := by
  induction rels generalizing st with
  | nil => rfl
  | cons rel rest ih =>
    unfold processRelationships
    rw [processRelationship_flag]
    exact ih _

theorem processRecords_flag (flag b : Bool) (records : List Record) (nodes : List Node)
    (st : State) :
    processRecords b nodes records (withApplications flag st)
      = withApplicationsOutcome flag (processRecords b nodes records st) := by
  induction records generalizing nodes st with
  | nil => rfl
  | cons values more ih =>
    unfold processRecords
    split
    · rfl
    · rfl
    · rename_i n vs
      simp only
      split
      · exact ih _ _
      · rw [processNodes_flag]
        cases hp : processNodes (nodes ++ [n]) st with
        | mk st1 s =>
          cases s with
          | ok => exact ih _ _
          | err e => rfl
          | panic p => rfl
    · rename_i pnodes rels vs
      split
      · rw [processRelationships_flag]
        exact ih _ _
      · rw [processNodes_flag]
        cases hp : processNodes pnodes st with
        | mk st1 s =>
          cases s with
          | ok =>
            simp only [withApplicationsOutcome]
            rw [processRelationships_flag]
            exact ih _ _
          | err e => rfl
          | panic p => rfl

theorem runQueryOnCurrentNode_flag (flag b : Bool) (session : Session) (st : State) :
    runQueryOnCurrentNode session (withApplications flag st) b
      = withApplicationsOutcome flag (runQueryOnCurrentNode session st b) := by
  unfold runQueryOnCurrentNode
  simp only
  have h1 : (withApplications flag st).issued = st.issued := rfl
  have h2 : (withApplications flag st).m.Neo4jQuery = st.m.Neo4jQuery := rfl
  rw [h1, h2]
  split
  · rfl
  · rename_i records _
    exact processRecords_flag flag b records []
      { st with issued := st.issued ++ [st.m.Neo4jQuery] }

theorem followUp_of_run (session : Session) (st : State) (node : QueueManager)
    {r : State × Status}
    (h : runQueryOnCurrentNode session
        { st with m := { st.m with Neo4jQuery := followUpQuery node.QmgrID,
                                   Layer := st.m.Layer + 1 } } st.m.IncludeNodes = r) :
    followUp session st node
      = (r.1, match r.2 with
              | .panic p => .panic p
              | _ => .ok) := by
  subst h
  unfold followUp
  simp only
  split
  · rename_i st2 p heq
    rw [heq]
  · rename_i st2 s hs heq
    rw [heq]
    cases s with
    | panic p => exact absurd rfl (hs p)
    | ok => rfl
    | err e => rfl

theorem followUp_flag (flag : Bool) (session : Session) (st : State) (node : QueueManager) :
    followUp session (withApplications flag st) node
      = withApplicationsOutcome flag (followUp session st node) := by
  have h := runQueryOnCurrentNode_flag flag st.m.IncludeNodes session
    { st with m := { st.m with Neo4jQuery := followUpQuery node.QmgrID,
                               Layer := st.m.Layer + 1 } }
  rw [followUp_of_run session (withApplications flag st) node h,
    followUp_of_run session st node rfl]
  rfl

theorem rangeLoop_flag (flag : Bool) (session : Session) (order visited : List Int)
    (st : State) :
    rangeLoop session order visited (withApplications flag st)
      = (rangeLoop session order visited st).map (withApplicationsOutcome flag) := by
  induction order generalizing visited st with
  | nil => rfl
  | cons k rest ih =>
    simp only [rangeLoop]
    split
    · rfl
    · have hg : mapGet k (withApplications flag st).respqmgr = mapGet k st.respqmgr := rfl
      rw [hg]
      cases hget : mapGet k st.respqmgr with
      | none => rfl
      | some node =>
        simp only
        rw [followUp_flag]
        cases hp : followUp session st node with
        | mk st1 s =>
          cases s with
          | ok => exact ih _ _
          | err e => rfl
          | panic p => rfl

theorem RunQuery_of_root {driver : Driver} {session : Session} (order : List Int) (m : Match)
    (hd : driver.newSession = .ok session) {r : State × Status}
    (hroot : rootRound session m = r) :
    RunQuery driver order m
      = match r.2 with
        | .ok =>
          if m.Layer > r.1.m.Layer then
            if (mapKeys r.1.respqmgr).all (fun k => decide (k ∈ order)) then
              rangeLoop session order [] r.1
            else none
          else some (r.1, .ok)
        | s => some (r.1, s) := by
  subst hroot
  unfold RunQuery rootRound
  rw [hd]
  simp only
  split
  · rename_i st1 heq
    rw [heq]
  · rename_i st1 s hs heq
    rw [heq]
    cases s with
    | ok => exact absurd rfl hs
    | err e => rfl
    | panic p => rfl

theorem RunQuery_flag (flag : Bool) (driver : Driver) (order : List Int) (m : Match) :
    RunQuery driver order { m with IncludeApplications := flag }
      = (RunQuery driver order m).map (withApplicationsOutcome flag) := by
  cases hd : driver.newSession with
  | error e =>
    unfold RunQuery
    rw [hd]
    rfl
  | ok session =>
    have h : rootRound session { m with IncludeApplications := flag }
        = withApplicationsOutcome flag (rootRound session m) :=
      runQueryOnCurrentNode_flag flag false session
        { initState m with m := { m with Layer := 1 } }
    rw [RunQuery_of_root order { m with IncludeApplications := flag } hd h,
      RunQuery_of_root order m hd rfl]
    cases hp : rootRound session m with
    | mk st1 s =>
      cases s with
      | ok =>
        simp only [withApplicationsOutcome]
        have hL : (withApplications flag st1).m.Layer = st1.m.Layer := rfl
        have hK : (withApplications flag st1).respqmgr = st1.respqmgr := rfl
        rw [hL, hK]
        split
        · split
          · exact rangeLoop_flag flag session order [] st1
          · rfl
        · rfl
      | err e => rfl
      | panic p => rfl

theorem followUp_no_err (session : Session) (st : State) (node : QueueManager) (e : GoError) :
    (followUp session st node).2 ≠ .err e := by
  unfold followUp
  simp only
  split <;> (intro h; cases h)

theorem rangeLoop_no_err (session : Session) (order visited : List Int) (st : State)
    (r : State × Status) (h : rangeLoop session order visited st = some r) (e : GoError) :
    r.2 ≠ .err e := by
  induction order generalizing visited st with
  | nil =>
    simp only [rangeLoop] at h
    cases h
    intro h'; cases h'
  | cons k rest ih =>
    simp only [rangeLoop] at h
    split at h
    · cases h
    · split at h
      · cases h
      · rename_i node hnode
        have hf := followUp_no_err session st node e
        split at h
        · exact ih _ _ h
        · rename_i st1 s hs heq
          rw [heq] at hf
          cases h
          exact hf

theorem runQueryOnCurrentNode_last_issued (session : Session) (st : State) (b : Bool) :
    (runQueryOnCurrentNode session st b).1.issued.getLast?
      = some (runQueryOnCurrentNode session st b).1.m.Neo4jQuery := by
  have hg := runQueryOnCurrentNode_grows session st b
  rw [hg.issued_eq, hg.m_eq]
  simp

theorem followUp_last_issued (session : Session) (st : State) (node : QueueManager) :
    (followUp session st node).1.issued.getLast?
      = some (followUp session st node).1.m.Neo4jQuery := by
  rw [followUp_fst]
  exact runQueryOnCurrentNode_last_issued session _ _

theorem rangeLoop_receiver (session : Session) (order visited : List Int) (st : State)
    (r : State × Status) (h : rangeLoop session order visited st = some r)
    (hlast : st.issued.getLast? = some st.m.Neo4jQuery) :
    r.1.issued.getLast? = some r.1.m.Neo4jQuery
    ∧ r.1.m.IncludeNodes = st.m.IncludeNodes
    ∧ r.1.m.IncludeApplications = st.m.IncludeApplications
    ∧ r.1.m.Username = st.m.Username := by
  induction order generalizing visited st with
  | nil =>
    simp only [rangeLoop] at h
    cases h
    exact ⟨hlast, rfl, rfl, rfl⟩
  | cons k rest ih =>
    simp only [rangeLoop] at h
    split at h
    · cases h
    · split at h
      · cases h
      · rename_i node hnode
        have hl := followUp_last_issued session st node
        have hm := followUp_m session st node
        split at h
        · rename_i st1 heq
          rw [heq] at hl hm
          obtain ⟨i1, i2, i3, i4⟩ := ih _ _ h hl
          refine ⟨i1, ?_, ?_, ?_⟩
          · rw [i2, hm]
          · rw [i3, hm]
          · rw [i4, hm]
        · rename_i st1 s hs heq
          rw [heq] at hl hm
          cases h
          refine ⟨hl, ?_, ?_, ?_⟩ <;> rw [hm]

theorem processRecords_true_eq_withoutNodes (records : List Record) (nodes : List Node)
    (st : State) :
    processRecords true nodes records st
      = processRecords false [] (records.map withoutNodes) st := by
  induction records generalizing nodes st with
  | nil => rfl
  | cons values more ih =>
    rw [List.map_cons]
    cases values with
    | nil =>
      simp only [withoutNodes, processRecords]
    | cons v vs =>
      cases v with
      | other t =>
        simp only [withoutNodes, processRecords]
      | node n =>
        simp only [withoutNodes, processRecords, if_true, Bool.false_eq_true, if_false,
          processNodes, processRelationships]
        exact ih _ _
      | path pnodes rels =>
        simp only [withoutNodes, processRecords, if_true, Bool.false_eq_true, if_false,
          processNodes]
        exact ih _ _

theorem runQueryOnCurrentNode_true_eq_withoutNodes (session : Session) (st : State) :
    runQueryOnCurrentNode session st true
      = runQueryOnCurrentNode (withoutNodesSession session) st false := by
  unfold runQueryOnCurrentNode withoutNodesSession
  simp only
  cases session.run st.issued.length st.m.Neo4jQuery with
  | error e => rfl
  | ok records => exact processRecords_true_eq_withoutNodes records [] _

theorem processRecords_conns_extend (records : List Record) (nodes : List Node)
    (stF stT : State) (h : SameConns stF stT) :
    ∃ extra, (processRecords true nodes records stT).1.resp.Connections
      = (processRecords false nodes records stF).1.resp.Connections ++ extra := by
  induction records generalizing nodes stF stT with
  | nil => exact ⟨[], by rw [List.append_nil]; exact h.2⟩
  | cons values more ih =>
    unfold processRecords
    split
    · exact ⟨[], by rw [List.append_nil]; exact h.2⟩
    · exact ⟨[], by rw [List.append_nil]; exact h.2⟩
    · rename_i n vs
      simp only [if_true, Bool.false_eq_true, if_false]
      have hs := processNodes_sameConns (nodes ++ [n]) stF
      cases hp : processNodes (nodes ++ [n]) stF with
      | mk st1 s =>
        rw [hp] at hs
        have hc : SameConns st1 stT := ⟨h.1.trans hs.1.symm, h.2.trans hs.2.symm⟩
        cases s with
        | ok => exact ih _ _ _ hc
        | err e =>
          obtain ⟨added, hadd⟩ := (processRecords_grows true (nodes ++ [n]) more stT).conns
          exact ⟨added, by rw [hadd, hc.2]⟩
        | panic p =>
          obtain ⟨added, hadd⟩ := (processRecords_grows true (nodes ++ [n]) more stT).conns
          exact ⟨added, by rw [hadd, hc.2]⟩
    · rename_i pnodes rels vs
      simp only [if_true, Bool.false_eq_true, if_false]
      have hs := processNodes_sameConns pnodes stF
      cases hp : processNodes pnodes stF with
      | mk st1 s =>
        rw [hp] at hs
        have hc : SameConns st1 stT := ⟨h.1.trans hs.1.symm, h.2.trans hs.2.symm⟩
        cases s with
        | ok => exact ih _ _ _ (processRelationships_conns_congr rels st1 stT hc)
        | err e =>
          obtain ⟨added, hadd⟩ := ((processRelationships_grows rels stT).andThen
            (processRecords_grows true pnodes more (processRelationships rels stT))).conns
          exact ⟨added, by rw [hadd, hc.2]⟩
        | panic p =>
          obtain ⟨added, hadd⟩ := ((processRelationships_grows rels stT).andThen
            (processRecords_grows true pnodes more (processRelationships rels stT))).conns
          exact ⟨added, by rw [hadd, hc.2]⟩

/-! ## Claims -/

/-- C1 (defect in the code): in the end-to-end scenario of the specification the
call does not return a snapshot.  The queue manager node has no `multi`
property, the default assigned for it is a Go `int`, and the assertion
`multi.(int64)` panics; no queue manager and no connection is recorded.
This holds for both orders of the two nodes in the path. -/
theorem C1_end_to_end_panics :
    RunQuery e2eDriver [] e2eMatch
      = some ({ initState e2eMatch with issued := [e2eMatch.Neo4jQuery] },
              .panic (.interfaceConversion "int" "int64"))
    ∧ (∃ st, RunQuery e2eDriverRev [] e2eMatch
          = some (st, .panic (.interfaceConversion "int" "int64"))
        ∧ st.resp.QueueManagers = [] ∧ st.resp.Connections = []) := by
  refine ⟨by decide, ?_⟩
  refine ⟨(processApplicationNode
    { initState e2eMatch with issued := [e2eMatch.Neo4jQuery] } e2eAppNode).1, ?_, ?_, ?_⟩ <;>
  decide

/-- C2: for every string the classifier of the code returns the code of the
specification table (exact, case-sensitive match, 99 otherwise); it is a
total function; and the four sample values of the specification hold. -/
theorem C2_channelType_table (s : String) :
    channelType s = classifyChannelSpec s
    ∧ channelType "SVRCONN" = 7 ∧ channelType "MQTT" = 10
    ∧ channelType "svrconn" = 99 ∧ channelType "XYZ" = 99 := by
  refine ⟨?_, by decide, by decide, by decide, by decide⟩
  by_cases h1 : s = "SENDER"
  · subst h1; decide
  by_cases h2 : s = "SERVER"
  · subst h2; decide
  by_cases h3 : s = "RECEIVER"
  · subst h3; decide
  by_cases h4 : s = "REQUESTER"
  · subst h4; decide
  by_cases h5 : s = "CLIENT_CONN"
  · subst h5; decide
  by_cases h6 : s = "CLNTCONN"
  · subst h6; decide
  by_cases h7 : s = "SERVER_CONN"
  · subst h7; decide
  by_cases h8 : s = "SVRCONN"
  · subst h8; decide
  by_cases h9 : s = "CLUSTER_RECEIVER"
  · subst h9; decide
  by_cases h10 : s = "CLUSRCVR"
  · subst h10; decide
  by_cases h11 : s = "CLUSTER_SENDER"
  · subst h11; decide
  by_cases h12 : s = "CLUSSDR"
  · subst h12; decide
  by_cases h13 : s = "MQTT"
  · subst h13; decide
  have e1 : channelType s = 99 := by
    unfold channelType
    rw [if_neg h1, if_neg h2, if_neg h3, if_neg h4, if_neg h5, if_neg h6, if_neg h7,
      if_neg h8, if_neg h9, if_neg h10, if_neg h11, if_neg h12, if_neg h13]
  have e2 : classifyChannelSpec s = 99 := by
    unfold classifyChannelSpec channelTypeTable
    have hn : ∀ t : String, ¬ s = t → decide (t = s) = false := by
      intro t ht
      exact decide_eq_false (fun h => ht h.symm)
    rw [find?_cons_eq, find?_cons_eq, find?_cons_eq, find?_cons_eq, find?_cons_eq,
      find?_cons_eq, find?_cons_eq, find?_cons_eq, find?_cons_eq, find?_cons_eq,
      find?_cons_eq, find?_cons_eq, find?_cons_eq]
    simp only [hn _ h1, hn _ h2, hn _ h3, hn _ h4, hn _ h5, hn _ h6, hn _ h7, hn _ h8,
      hn _ h9, hn _ h10, hn _ h11, hn _ h12, hn _ h13]
    rfl
  rw [e1, e2]

/-- C3: first writer wins.  In a consistent store, once a queue manager node
has been processed, processing a second node with the same identity (in
any later layer, whatever its properties) changes nothing; the ordered list
then holds exactly one queue manager with that identity; and when the
identity was new, that entry is the record built from the first node with
the layer of its processing.  The same for application nodes and for
relationships. -/
theorem C3_first_writer_wins :
    (∀ (st st1 : State) (n1 n2 : Node) (m2 : Match), Inv st → n1.id = n2.id →
      processQueueManagerNode st n1 = (st1, .ok) →
        (processQueueManagerNode { st1 with m := m2 } n2).1 = { st1 with m := m2 }
        ∧ (st1.resp.QueueManagers.filter (fun q => decide (q.ID = n1.id))).length = 1
        ∧ (mapGet n1.id st.respqmgr = none →
            ∀ q ∈ st1.resp.QueueManagers, q.ID = n1.id → buildQueueManager n1 st.m = .ok q))
    ∧ (∀ (st st1 : State) (n1 n2 : Node) (m2 : Match), Inv st → n1.id = n2.id →
      processApplicationNode st n1 = (st1, .ok) →
        (processApplicationNode { st1 with m := m2 } n2).1 = { st1 with m := m2 }
        ∧ (st1.resp.Applications.filter (fun a => decide (a.ID = n1.id))).length = 1
        ∧ (mapGet n1.id st.respapp = none →
            ∀ a ∈ st1.resp.Applications, a.ID = n1.id → buildApplication n1 st.m = .ok a))
    ∧ (∀ (st : State) (r1 r2 : Relationship), Inv st → r1.id = r2.id →
        processRelationship (processRelationship st r1) r2 = processRelationship st r1
        ∧ ((processRelationship st r1).resp.Connections.filter
            (fun c => decide (c.ID = r1.id))).length = 1
        ∧ (mapGet r1.id st.respconns = none →
            ∀ c ∈ (processRelationship st r1).resp.Connections, c.ID = r1.id →
              c = connectionOf r1)) := by
  refine ⟨?_, ?_, ?_⟩
  · intro st st1 n1 n2 m2 hinv hid h1
    obtain ⟨q, hq⟩ := processQueueManagerNode_present h1
    have hg := processQueueManagerNode_grows st n1
    rw [h1] at hg
    have hinv1 : Inv st1 := hg.inv hinv
    refine ⟨?_, ?_, ?_⟩
    · exact processQueueManagerNode_noop { st1 with m := m2 } (q := q) (by rw [← hid]; exact hq)
    · exact filter_ident_length_one _ _ _ hinv1.1.1 (hinv1.1.2.2 _ (mapKeys_of_mapGet hq))
    · intro hnone e he heid
      obtain ⟨qm, hqm, hlist⟩ := processQueueManagerNode_fresh h1 hnone
      obtain ⟨hqid, _⟩ := buildQueueManager_ok hqm
      rw [hlist] at he
      have : e = qm := fresh_entry_unique hinv.1 (by rw [hqid]; exact hnone) he (by rw [heid, hqid])
      rw [this, hqm]
  · intro st st1 n1 n2 m2 hinv hid h1
    obtain ⟨q, hq⟩ := processApplicationNode_present h1
    have hg := processApplicationNode_grows st n1
    rw [h1] at hg
    have hinv1 : Inv st1 := hg.inv hinv
    refine ⟨?_, ?_, ?_⟩
    · exact processApplicationNode_noop { st1 with m := m2 } (q := q) (by rw [← hid]; exact hq)
    · exact filter_ident_length_one _ _ _ hinv1.2.1.1 (hinv1.2.1.2.2 _ (mapKeys_of_mapGet hq))
    · intro hnone e he heid
      obtain ⟨app, happ, hlist⟩ := processApplicationNode_fresh h1 hnone
      obtain ⟨haid, _⟩ := buildApplication_ok happ
      rw [hlist] at he
      have : e = app := fresh_entry_unique hinv.2.1 (by rw [haid]; exact hnone) he (by rw [heid, haid])
      rw [this, happ]
  · intro st r1 r2 hinv hid
    obtain ⟨c, hc⟩ := processRelationship_present st r1
    have hinv1 : Inv (processRelationship st r1) := (processRelationship_grows st r1).inv hinv
    refine ⟨?_, ?_, ?_⟩
    · exact processRelationship_noop (c := c) (by rw [← hid]; exact hc)
    · exact filter_ident_length_one _ _ _ hinv1.2.2.1 (hinv1.2.2.2.2 _ (mapKeys_of_mapGet hc))
    · intro hnone e he heid
      rw [processRelationship_fresh hnone] at he
      exact fresh_entry_unique hinv.2.2 (e := connectionOf r1) hnone he heid

/-- Witness for C3: on the empty store, two queue manager nodes, two application
nodes and two relationships that share an identity and differ in a field;
the second of each is processed in layer 2. -/
theorem C3_first_writer_wins_witness :
    (Inv (initState (demoMatch 1))
      ∧ (demoQmgrNode 1 10 "QM1").id = (demoQmgrNode 1 11 "QMX").id
      ∧ (processQueueManagerNode (initState (demoMatch 1)) (demoQmgrNode 1 10 "QM1")).2 = .ok
      ∧ mapGet (demoQmgrNode 1 10 "QM1").id (initState (demoMatch 1)).respqmgr = none
      ∧ ∀ q ∈ (processQueueManagerNode (initState (demoMatch 1))
            (demoQmgrNode 1 10 "QM1")).1.resp.QueueManagers,
          q.ID = 1 → buildQueueManager (demoQmgrNode 1 10 "QM1") (demoMatch 1) = .ok q)
    ∧ (processApplicationNode
          { (processApplicationNode (initState (demoMatch 1)) (demoAppNode 2 5 "APP1")).1
              with m := demoMatch 2 } (demoAppNode 2 6 "APPX")).1
        = { (processApplicationNode (initState (demoMatch 1)) (demoAppNode 2 5 "APP1")).1
              with m := demoMatch 2 }
    ∧ ((processRelationship (initState (demoMatch 1))
          { id := 99, startId := 2, endId := 1, type := "SVRCONN" }).resp.Connections.filter
        (fun c => decide (c.ID = 99))).length = 1 :=
  ⟨⟨by decide, rfl, by decide, by decide,
      (C3_first_writer_wins.1 (initState (demoMatch 1)) _ (demoQmgrNode 1 10 "QM1")
        (demoQmgrNode 1 11 "QMX") (demoMatch 2) (by decide) rfl (by decide)).2.2 (by decide)⟩,
    (C3_first_writer_wins.2.1 (initState (demoMatch 1)) _ (demoAppNode 2 5 "APP1")
        (demoAppNode 2 6 "APPX") (demoMatch 2) (by decide) rfl (by decide)).1,
    (C3_first_writer_wins.2.2 (initState (demoMatch 1))
        { id := 99, startId := 2, endId := 1, type := "SVRCONN" }
        { id := 99, startId := 1, endId := 2, type := "SENDER" } (by decide) rfl).2.1⟩

/-- C4: consistency of the three stores is an invariant of the traversal.  It
holds of the empty state `RunQuery` starts from; it is kept by every call
of `runQueryOnCurrentNode`, whether the query succeeds, fails or panics, and
so by every follow-up step and every run of the expansion loop; and it
holds of the state `RunQuery` ends in.  Consistency says for each kind: no
identity twice in the ordered list, every list entry is the map's value for
its identity, and every key of the map is the identity of a list entry. -/
theorem C4_store_invariant :
    (∀ m : Match, Inv (initState m))
    ∧ (∀ (session : Session) (st : State) (onlyRelationships : Bool),
        Inv st → Inv (runQueryOnCurrentNode session st onlyRelationships).1)
    ∧ (∀ (session : Session) (st : State) (node : QueueManager),
        Inv st → Inv (followUp session st node).1)
    ∧ (∀ (session : Session) (order visited : List Int) (st : State) (r : State × Status),
        Inv st → rangeLoop session order visited st = some r → Inv r.1)
    ∧ (∀ (driver : Driver) (order : List Int) (m : Match) (r : State × Status),
        RunQuery driver order m = some r → Inv r.1) := by
  refine ⟨initState_inv, runQueryOnCurrentNode_inv, followUp_inv, rangeLoop_inv, ?_⟩
  intro driver order m r hr
  unfold RunQuery at hr
  split at hr
  · cases hr
    exact initState_inv m
  · rename_i session _
    simp only at hr
    have h1 := runQueryOnCurrentNode_inv session
      { initState m with m := { m with Layer := 1 } } false (initState_inv m)
    split at hr
    · rename_i st1 heq
      rw [heq] at h1
      split at hr
      · split at hr
        · exact rangeLoop_inv session order [] st1 r h1 hr
        · cases hr
      · cases hr
        exact h1
    · rename_i st1 s hs heq
      rw [heq] at h1
      cases hr
      exact h1

/-- Witness for C4: the example with two queue managers and two layers. -/
theorem C4_store_invariant_witness :
    Inv (initState (demoMatch 2))
    ∧ Inv (rootRound twoQmgrSession (demoMatch 2)).1
    ∧ Inv ((RunQuery ⟨.ok twoQmgrSession⟩ [1, 2] (demoMatch 2)).getD
            (initState (demoMatch 2), .ok)).1 :=
  ⟨C4_store_invariant.1 _,
    C4_store_invariant.2.1 twoQmgrSession _ false (by decide),
    C4_store_invariant.2.2.2.2 ⟨.ok twoQmgrSession⟩ [1, 2] (demoMatch 2) _ (by decide)⟩

/-- C5: with `Layer = 1` on entry, `RunQuery` ends (for any iteration order)
having issued the root query and nothing else (no query at all when no
session could be opened), and every queue manager and every application
in the response has `Layer = 1`. -/
theorem C5_single_layer (driver : Driver) (order : List Int) (m : Match) (hL : m.Layer = 1) :
    ∃ st s, RunQuery driver order m = some (st, s)
      ∧ (st.issued = match driver.newSession with
                      | .ok _ => [m.Neo4jQuery]
                      | .error _ => [])
      ∧ (∀ q ∈ st.resp.QueueManagers, q.Layer = 1)
      ∧ (∀ a ∈ st.resp.Applications, a.Layer = 1) := by
  unfold RunQuery
  cases hd : driver.newSession with
  | error e =>
    exact ⟨initState m, .panic .nilDereference, rfl, rfl, by simp [initState],
      by simp [initState]⟩
  | ok session =>
    simp only
    have hg := runQueryOnCurrentNode_grows session
      { initState m with m := { m with Layer := 1 } } false
    obtain ⟨qa, hqa, hql⟩ := hg.qms
    obtain ⟨aa, haa, hal⟩ := hg.apps
    have hm := hg.m_eq
    have hi := hg.issued_eq
    have hfacts : ∀ st1 s1, runQueryOnCurrentNode session
        { initState m with m := { m with Layer := 1 } } false = (st1, s1) →
        st1.issued = [m.Neo4jQuery] ∧ (∀ q ∈ st1.resp.QueueManagers, q.Layer = 1)
          ∧ (∀ a ∈ st1.resp.Applications, a.Layer = 1) ∧ st1.m.Layer = 1 := by
      intro st1 s1 heq
      rw [heq] at hqa haa hm hi
      simp only [initState, List.nil_append] at hqa haa hm hi hql hal
      refine ⟨hi, ?_, ?_, by rw [hm]⟩
      · intro q hq; rw [hqa] at hq; exact hql q hq
      · intro a ha; rw [haa] at ha; exact hal a ha
    split
    · rename_i st1 heq
      obtain ⟨h1, h2, h3, h4⟩ := hfacts st1 _ heq
      have hno : ¬ (m.Layer > st1.m.Layer) := by rw [hL, h4]; decide
      rw [if_neg hno]
      exact ⟨st1, .ok, rfl, h1, h2, h3⟩
    · rename_i st1 s hs heq
      obtain ⟨h1, h2, h3, _⟩ := hfacts st1 _ heq
      exact ⟨st1, s, rfl, h1, h2, h3⟩

/-- Witness for C5: the example with two queue managers, `maxLayers = 1`. -/
theorem C5_single_layer_witness :
    (demoMatch 1).Layer = 1
    ∧ ∃ st s, RunQuery ⟨.ok twoQmgrSession⟩ [] (demoMatch 1) = some (st, s)
      ∧ st.issued = [(demoMatch 1).Neo4jQuery]
      ∧ (∀ q ∈ st.resp.QueueManagers, q.Layer = 1)
      ∧ (∀ a ∈ st.resp.Applications, a.Layer = 1) :=
  ⟨rfl, C5_single_layer ⟨.ok twoQmgrSession⟩ [] (demoMatch 1) rfl⟩

/-- C6 (defect in the code): with `maxLayers = 2` and node classification active
in follow-up queries, the layer counter is incremented once per queue
manager visited, not once per round.  With two queue managers behind the
root query, whichever of the two possible iteration orders is taken, the
application first seen by the second follow-up query is recorded with
`Layer = 3`; the queue managers found by the root query keep `Layer = 1`. -/
theorem C6_second_follow_up_tags_layer_three :
    (RunQuery ⟨.ok twoQmgrSession⟩ [1, 2] (demoMatch 2)).map
        (fun r => (r.2, r.1.resp.Applications.map (fun a => (a.AppID, a.Layer)),
                   r.1.resp.QueueManagers.map (fun q => (q.QmgrID, q.Layer))))
      = some (.ok, [(5, 2), (6, 3)], [(10, 1), (20, 1)])
    ∧ (RunQuery ⟨.ok twoQmgrSession⟩ [2, 1] (demoMatch 2)).map
        (fun r => (r.2, r.1.resp.Applications.map (fun a => (a.AppID, a.Layer)),
                   r.1.resp.QueueManagers.map (fun q => (q.QmgrID, q.Layer))))
      = some (.ok, [(6, 2), (5, 3)], [(10, 1), (20, 1)]) := by
  constructor <;> decide

/-- C7, counterexample: with `maxLayers = 3` there is no third round.  In the
chain example the queue manager found by the root query gets one follow-up
query in all, the queue manager discovered by that query may get none, and
the run is the same as with `maxLayers = 2`. -/
theorem C7_no_round_per_layer :
    (RunQuery ⟨.ok chainSession⟩ [1] (demoMatch 3)).map
        (fun r => (r.2, r.1.issued, r.1.resp.QueueManagers.map (fun q => q.QmgrID)))
      = some (.ok, [(demoMatch 3).Neo4jQuery, followUpQuery 10], [10, 20])
    ∧ (RunQuery ⟨.ok chainSession⟩ [1, 2] (demoMatch 3)).map (fun r => (r.2, r.1.issued))
      = some (.ok, [(demoMatch 3).Neo4jQuery, followUpQuery 10, followUpQuery 20])
    ∧ RunQuery ⟨.ok chainSession⟩ [1, 2] (demoMatch 3)
      = RunQuery ⟨.ok chainSession⟩ [1, 2] (demoMatch 2) := by
  refine ⟨?_, ?_, ?_⟩ <;> decide

/-- C7, amended: for every `maxLayers = n ≥ 2` the run is the run for
`maxLayers = 2`: one pass over the queue manager map.  When it returns
normally, the queries issued are the root query and then one follow-up
query per key of the iteration order; the order has no key twice, holds
the identity of every queue manager found by the root query, and holds
only identities of queue managers in the response. -/
theorem C7_single_expansion_pass (driver : Driver) (session : Session) (order : List Int)
    (m : Match) (n : Int) (hn : 2 ≤ n) (hd : driver.newSession = .ok session) :
    RunQuery driver order { m with Layer := n } = RunQuery driver order { m with Layer := 2 }
    ∧ ∀ st : State, RunQuery driver order { m with Layer := n } = some (st, .ok) →
        st.issued = m.Neo4jQuery :: followUpTexts st.respqmgr order
        ∧ st.issued.length = 1 + order.length
        ∧ order.Nodup
        ∧ (∀ q ∈ (rootRound session m).1.resp.QueueManagers, q.ID ∈ order)
        ∧ (∀ k ∈ order, ∃ q ∈ st.resp.QueueManagers, q.ID = k) := by
  constructor
  · by_cases hroot : (rootRound session m).2 = .ok
    · have hm := (rootRound_facts session m).2.1
      unfold rootRound at hroot hm
      unfold RunQuery
      rw [hd]
      simp only
      show (match runQueryOnCurrentNode session
          { initState m with m := { m with Layer := 1 } } false with
        | (st1, .ok) => _
        | (st1, s) => _) = (match runQueryOnCurrentNode session
          { initState m with m := { m with Layer := 1 } } false with
        | (st1, .ok) => _
        | (st1, s) => _)
      split
      · rename_i st1 heq
        rw [heq] at hm
        simp only at hm
        have h1 : n > st1.m.Layer := by rw [hm]; simp only; omega
        have h2 : (2 : Int) > st1.m.Layer := by rw [hm]; simp only; omega
        rw [if_pos h1, if_pos h2]
      · rfl
    · have h1 := RunQuery_root_not_ok order { m with Layer := n } hd hroot
      have h2 := RunQuery_root_not_ok order { m with Layer := 2 } hd hroot
      rw [h1, h2]
      rfl
  · intro st hr
    have hroot : (rootRound session { m with Layer := n }).2 = .ok := by
      by_contra hne
      rw [RunQuery_root_not_ok _ _ hd hne] at hr
      have := congrArg Prod.snd (Option.some.inj hr)
      exact hne this
    obtain ⟨hloop, hcover⟩ := RunQuery_expansion hd hn hroot hr
    obtain ⟨hiss, _, hinv⟩ := rootRound_facts session { m with Layer := n }
    obtain ⟨i1, i2, _, i4, _, _, _, _⟩ := rangeLoop_ok_facts _ _ _ _ _ hloop
    have hinvF : Inv st := rangeLoop_inv _ _ _ _ _ hinv hloop
    have hissued : st.issued = m.Neo4jQuery :: followUpTexts st.respqmgr order := by
      rw [i1, hiss]; rfl
    refine ⟨hissued, ?_, i2, ?_, ?_⟩
    · rw [hissued, List.length_cons, followUpTexts_length _ _ i4]; omega
    · intro q hq
      have hget := hinv.1.2.1 q hq
      exact hcover _ (mapKeys_of_mapGet hget)
    · intro k hk
      have := hinvF.1.2.2 k (i4 k hk)
      obtain ⟨q, hq, hqid⟩ := List.mem_map.mp this
      exact ⟨q, hq, hqid⟩

/-- Witness for C7: the chain example with `maxLayers = 3`. -/
theorem C7_single_expansion_pass_witness :
    (2 : Int) ≤ 3
    ∧ RunQuery ⟨.ok chainSession⟩ [1, 2] { demoMatch 0 with Layer := 3 }
        = RunQuery ⟨.ok chainSession⟩ [1, 2] { demoMatch 0 with Layer := 2 }
    ∧ ((RunQuery ⟨.ok chainSession⟩ [1, 2] { demoMatch 0 with Layer := 3 }).getD
          (initState (demoMatch 0), .ok)).1.issued.length = 1 + [(1 : Int), 2].length :=
  ⟨by decide,
    (C7_single_expansion_pass ⟨.ok chainSession⟩ chainSession [1, 2] (demoMatch 0) 3
      (by decide) rfl).1,
    ((C7_single_expansion_pass ⟨.ok chainSession⟩ chainSession [1, 2] (demoMatch 0) 3
      (by decide) rfl).2 _ (by decide)).2.1⟩

/-- C8, counterexample: in the chain example with `maxLayers = 2` the root query
finds one queue manager, and an iteration that also produces the entry
created by the first follow-up query issues two follow-up queries. -/
theorem C8_more_follow_ups_than_round_one :
    (rootRound chainSession (demoMatch 2)).1.resp.QueueManagers.map (fun q => q.QmgrID) = [10]
    ∧ (RunQuery ⟨.ok chainSession⟩ [1, 2] (demoMatch 2)).map (fun r => (r.2, r.1.issued))
      = some (.ok, [(demoMatch 2).Neo4jQuery, followUpQuery 10, followUpQuery 20]) := by
  constructor <;> decide

/-- C8, amended: with `maxLayers = 2`, when the call returns normally the queries
issued are the root query and then, for each key of the iteration order,
the follow-up query built from the external id `QmgrID` of the queue
manager stored under that key.  Every queue manager found by the root
query is in the order, no key is in it twice, and every key is the
identity of a queue manager in the response; further keys can only be
queue managers discovered by follow-up queries, and there are none when
follow-up queries extract relationships only (`IncludeNodes = true`). -/
theorem C8_follow_up_per_queue_manager (driver : Driver) (session : Session)
    (order : List Int) (m : Match) (st : State) (hL : m.Layer = 2)
    (hd : driver.newSession = .ok session) (hr : RunQuery driver order m = some (st, .ok)) :
    st.issued = m.Neo4jQuery :: followUpTexts st.respqmgr order
    ∧ order.Nodup
    ∧ (∀ q ∈ (rootRound session m).1.resp.QueueManagers,
        q.ID ∈ order ∧ mapGet q.ID st.respqmgr = some q)
    ∧ (∀ k ∈ order, ∃ q ∈ st.resp.QueueManagers, q.ID = k ∧ mapGet k st.respqmgr = some q)
    ∧ (m.IncludeNodes = true →
        ∀ k ∈ order, ∃ q ∈ (rootRound session m).1.resp.QueueManagers, q.ID = k)
    ∧ (∀ N : Int, followUpQuery N
        = "match p=(q \x7bqmid: " ++ toString N ++ "\x7d)-[]-() return p") := by
  have hroot : (rootRound session m).2 = .ok := by
    by_contra hne
    rw [RunQuery_root_not_ok _ _ hd hne] at hr
    have := congrArg Prod.snd (Option.some.inj hr)
    exact hne this
  obtain ⟨hloop, hcover⟩ := RunQuery_expansion hd (by omega) hroot hr
  obtain ⟨hiss, hm, hinv⟩ := rootRound_facts session m
  obtain ⟨i1, i2, _, i4, i5, i6, _, _⟩ := rangeLoop_ok_facts _ _ _ _ _ hloop
  have hinvF : Inv st := rangeLoop_inv _ _ _ _ _ hinv hloop
  refine ⟨by rw [i1, hiss]; rfl, i2, ?_, ?_, ?_, fun _ => rfl⟩
  · intro q hq
    have hget := hinv.1.2.1 q hq
    exact ⟨hcover _ (mapKeys_of_mapGet hget), i5 _ _ hget⟩
  · intro k hk
    have := hinvF.1.2.2 k (i4 k hk)
    obtain ⟨q, hq, hqid⟩ := List.mem_map.mp this
    refine ⟨q, hq, hqid, ?_⟩
    rw [← hqid]
    exact hinvF.1.2.1 q hq
  · intro hinc k hk
    have hsame := i6 (by rw [hm]; exact hinc)
    have hkey : k ∈ mapKeys (rootRound session m).1.respqmgr := by
      rw [← hsame.1]; exact i4 k hk
    have := hinv.1.2.2 k hkey
    obtain ⟨q, hq, hqid⟩ := List.mem_map.mp this
    exact ⟨q, hq, hqid⟩

/-- Witness for C8: the example with two queue managers behind the root query. -/
theorem C8_follow_up_per_queue_manager_witness :
    (demoMatch 2).Layer = 2
    ∧ ((RunQuery ⟨.ok twoQmgrSession⟩ [2, 1] (demoMatch 2)).getD
          (initState (demoMatch 2), .ok)).1.issued
        = (demoMatch 2).Neo4jQuery :: followUpTexts
            ((RunQuery ⟨.ok twoQmgrSession⟩ [2, 1] (demoMatch 2)).getD
              (initState (demoMatch 2), .ok)).1.respqmgr [2, 1] :=
  ⟨rfl,
    (C8_follow_up_per_queue_manager ⟨.ok twoQmgrSession⟩ twoQmgrSession [2, 1] (demoMatch 2)
      _ rfl rfl (by decide)).1⟩

/-- C9, counterexample: same request, same answers of the database, two
iteration orders of the queue manager map: the follow-up queries are
issued in different orders and the applications get different layers. -/
theorem C9_iteration_order_changes_result :
    (RunQuery ⟨.ok twoQmgrSession⟩ [1, 2] (demoMatch 2)).map
        (fun r => (r.2, r.1.issued, r.1.resp.Applications.map (fun a => (a.AppID, a.Layer))))
      = some (.ok, [(demoMatch 2).Neo4jQuery, followUpQuery 10, followUpQuery 20],
              [(5, 2), (6, 3)])
    ∧ (RunQuery ⟨.ok twoQmgrSession⟩ [2, 1] (demoMatch 2)).map
        (fun r => (r.2, r.1.issued, r.1.resp.Applications.map (fun a => (a.AppID, a.Layer))))
      = some (.ok, [(demoMatch 2).Neo4jQuery, followUpQuery 20, followUpQuery 10],
              [(6, 2), (5, 3)]) := by
  constructor <;> decide

/-- C9, amended: the queue managers are visited in the order in which the range
over the map produces them, and that order alone decides the run: two
runs on the same request and database that issue the same sequence of
queries end in the same state (same entities, same layers, same order)
with the same outcome.  When a run with expansion returns normally, its
queries are the root query followed by the follow-up queries of the keys
in iteration order. -/
theorem C9_same_queries_same_result (driver : Driver) (m : Match) (o1 o2 : List Int)
    (r1 r2 : State × Status) (h1 : RunQuery driver o1 m = some r1)
    (h2 : RunQuery driver o2 m = some r2) (hi : r1.1.issued = r2.1.issued) :
    r1 = r2
    ∧ (2 ≤ m.Layer → r1.2 = .ok → (∃ session, driver.newSession = .ok session) →
        r1.1.issued = m.Neo4jQuery :: followUpTexts r1.1.respqmgr o1) := by
  constructor
  · cases hd : driver.newSession with
    | error e =>
      simp only [RunQuery, hd] at h1 h2
      rw [← Option.some.inj h1, ← Option.some.inj h2]
    | ok session =>
      by_cases hroot : (rootRound session m).2 = .ok
      · by_cases hL : 2 ≤ m.Layer
        · exact rangeLoop_same_issued session o1 o2 [] [] _ r1 r2
            (RunQuery_expansion hd hL hroot h1).1 (RunQuery_expansion hd hL hroot h2).1 hi
        · rw [RunQuery_no_expansion hd (by omega)] at h1 h2
          rw [← Option.some.inj h1, ← Option.some.inj h2]
      · rw [RunQuery_root_not_ok _ _ hd hroot] at h1 h2
        rw [← Option.some.inj h1, ← Option.some.inj h2]
  · intro hL hok hex
    obtain ⟨session, hd⟩ := hex
    have hroot : (rootRound session m).2 = .ok := by
      by_contra hne
      rw [RunQuery_root_not_ok _ _ hd hne] at h1
      rw [← Option.some.inj h1] at hok
      exact hne hok
    obtain ⟨st, s⟩ := r1
    simp only at hok
    subst hok
    obtain ⟨hloop, _⟩ := RunQuery_expansion hd hL hroot h1
    obtain ⟨hiss, _, _⟩ := rootRound_facts session m
    obtain ⟨i1, _⟩ := rangeLoop_ok_facts _ _ _ _ _ hloop
    show st.issued = _
    rw [i1, hiss]
    rfl

/-- Witness for C9: two queue manager nodes with the same external id, visited
in either order, give the same sequence of queries and so the same result. -/
theorem C9_same_queries_same_result_witness :
    ((RunQuery ⟨.ok twinSession⟩ [1, 2] (demoMatch 2)).getD (initState (demoMatch 2), .ok)).1.issued
      = ((RunQuery ⟨.ok twinSession⟩ [2, 1] (demoMatch 2)).getD
          (initState (demoMatch 2), .ok)).1.issued
    ∧ (RunQuery ⟨.ok twinSession⟩ [1, 2] (demoMatch 2)).getD (initState (demoMatch 2), .ok)
      = (RunQuery ⟨.ok twinSession⟩ [2, 1] (demoMatch 2)).getD (initState (demoMatch 2), .ok) :=
  ⟨by decide,
    (C9_same_queries_same_result ⟨.ok twinSession⟩ (demoMatch 2) [1, 2] [2, 1] _ _
      (by decide) (by decide) (by decide)).1⟩

/-- C10: a node whose first label is `QueueManager` and that lacks `qmid`, `name`
or `host`, and a node whose first label is `Application` and that lacks
`id`, `name` or `owner`, makes the extraction stop with its error (the
`panic` naming the first missing property) and leaves the whole state, so
the map and the ordered list of its kind, as it was. -/
theorem C10_missing_required_property (st : State) (node : Node) (rest : List String) :
    (node.labels = "QueueManager" :: rest →
      (propGet "qmid" node.props = none ∨ propGet "name" node.props = none
        ∨ propGet "host" node.props = none) →
      ∃ msg, processNode st node = (st, .panic (.message msg))
        ∧ msg ∈ ["Error getting mqid property", "Error getting name property",
                  "Error getting host property"])
    ∧ (node.labels = "Application" :: rest →
      (propGet "id" node.props = none ∨ propGet "name" node.props = none
        ∨ propGet "owner" node.props = none) →
      ∃ msg, processNode st node = (st, .panic (.message msg))
        ∧ msg ∈ ["Error getting id property", "Error getting name property",
                  "Error getting owner property"]) := by
  constructor
  · intro hlab hmiss
    have hp : processNode st node = processQueueManagerNode st node := by
      simp [processNode, hlab]
    rw [hp]
    unfold processQueueManagerNode
    simp only [buildQueueManager]
    cases h1 : propGet "qmid" node.props with
    | none => exact ⟨_, rfl, by simp⟩
    | some v1 =>
      cases h2 : propGet "name" node.props with
      | none => exact ⟨_, rfl, by simp⟩
      | some v2 =>
        cases h3 : propGet "host" node.props with
        | none => exact ⟨_, rfl, by simp⟩
        | some v3 =>
          rw [h1, h2, h3] at hmiss
          simp at hmiss
  · intro hlab hmiss
    have hp : processNode st node = processApplicationNode st node := by
      simp [processNode, hlab]
    rw [hp]
    unfold processApplicationNode
    simp only [buildApplication]
    cases h1 : propGet "id" node.props with
    | none => exact ⟨_, rfl, by simp⟩
    | some v1 =>
      cases h2 : propGet "name" node.props with
      | none => exact ⟨_, rfl, by simp⟩
      | some v2 =>
        cases h3 : propGet "owner" node.props with
        | none => exact ⟨_, rfl, by simp⟩
        | some v3 =>
          rw [h1, h2, h3] at hmiss
          simp at hmiss

/-- Witness for C10: a queue manager node without `name` and an application node
without `owner`. -/
theorem C10_missing_required_property_witness :
    (∃ msg, processNode (initState (demoMatch 1))
        { id := 1, labels := ["QueueManager"],
          props := [("qmid", .int64 10), ("host", .string "h1")] }
          = (initState (demoMatch 1), .panic (.message msg))
        ∧ msg ∈ ["Error getting mqid property", "Error getting name property",
                  "Error getting host property"])
    ∧ (∃ msg, processNode (initState (demoMatch 1))
        { id := 2, labels := ["Application"],
          props := [("id", .int64 5), ("name", .string "APP1")] }
          = (initState (demoMatch 1), .panic (.message msg))
        ∧ msg ∈ ["Error getting id property", "Error getting name property",
                  "Error getting owner property"]) :=
  ⟨(C10_missing_required_property (initState (demoMatch 1))
      { id := 1, labels := ["QueueManager"],
        props := [("qmid", .int64 10), ("host", .string "h1")] } []).1 rfl
      (Or.inr (Or.inl rfl)),
    (C10_missing_required_property (initState (demoMatch 1))
      { id := 2, labels := ["Application"],
        props := [("id", .int64 5), ("name", .string "APP1")] } []).2 rfl
      (Or.inr (Or.inr rfl))⟩

/-- C11 (defect in the code): a queue manager node with `qmid` (integer), `name`
and `host` (strings) and no `multi` property is not extracted: the default
assigned for `multi` is a Go `int` and the assertion `multi.(int64)`
panics, whatever the identity, labels and values are, with `host2` absent
or present.  The other half of the claim holds: with `multi` present and
`host2` absent the record is built with `Host2 = ""`. -/
theorem C11_absent_multi_panics (id qmid : Int) (labels : List String) (name host host2 : String)
    (m : Match) :
    buildQueueManager
        { id := id, labels := labels,
          props := [("qmid", .int64 qmid), ("name", .string name), ("host", .string host)] } m
      = .error (.interfaceConversion "int" "int64")
    ∧ buildQueueManager
        { id := id, labels := labels,
          props := [("qmid", .int64 qmid), ("name", .string name), ("host", .string host),
                    ("host2", .string host2)] } m
      = .error (.interfaceConversion "int" "int64")
    ∧ (∀ st : State, processQueueManagerNode st
        { id := id, labels := labels,
          props := [("qmid", .int64 qmid), ("name", .string name), ("host", .string host)] }
      = (st, .panic (.interfaceConversion "int" "int64")))
    ∧ (buildQueueManager
        { id := id, labels := labels,
          props := [("qmid", .int64 qmid), ("name", .string name), ("host", .string host),
                    ("multi", .int64 1)] } m).map (fun q => (q.Host2, q.MultiInst))
      = .ok ("", 1) := by
  refine ⟨rfl, rfl, fun st => rfl, rfl⟩

/-- C12: role and decommission mapping.  Whenever the record of a queue manager
node is built, (a) if `decom` is present as an integer `d`, then
`Decom = d` and `Repos` is 0 for type `"Full"`, 1 for type `"Partial"` or
an absent type, 2 for type `"Normal"` and 3 for any other type value;
(b) if `decom` is absent or not an integer, then `Decom = 0` and
`Repos = 3`, whatever the type is. -/
theorem C12_role_and_decom (node : Node) (m : Match) (qm : QueueManager)
    (h : buildQueueManager node m = .ok qm) :
    (∀ d, propGet "decom" node.props = some (.int64 d) →
      qm.Decom = d
      ∧ (propGet "type" node.props = some (.string "Full") → qm.Repos = 0)
      ∧ (propGet "type" node.props = some (.string "Partial")
          ∨ propGet "type" node.props = none → qm.Repos = 1)
      ∧ (propGet "type" node.props = some (.string "Normal") → qm.Repos = 2)
      ∧ (∀ v, propGet "type" node.props = some v → v ≠ .string "Full" →
          v ≠ .string "Partial" → v ≠ .string "Normal" → qm.Repos = 3))
    ∧ ((∀ d, propGet "decom" node.props ≠ some (.int64 d)) → qm.Decom = 0 ∧ qm.Repos = 3) := by
  simp only [buildQueueManager] at h
  split at h
  · exact Except.noConfusion h
  split at h
  · exact Except.noConfusion h
  split at h
  · exact Except.noConfusion h
  constructor
  · intro d hd
    rw [hd] at h
    simp only at h
    repeat' split at h
    all_goals first
      | exact Except.noConfusion h
      | (cases h
         refine ⟨rfl, ?_, ?_, ?_, ?_⟩
         · intro ht; simp [ht, reposCode]
         · intro ht
           rcases ht with ht | ht <;> simp [ht, reposCode]
         · intro ht; simp [ht, reposCode]
         · intro v ht h1 h2 h3; simp [ht, reposCode, h1, h2, h3])
  · intro hnd
    cases hdec : propGet "decom" node.props with
    | none =>
      rw [hdec] at h
      simp only at h
      repeat' split at h
      all_goals first
        | exact Except.noConfusion h
        | (cases h; exact ⟨rfl, rfl⟩)
    | some v =>
      cases v with
      | int64 d => exact absurd hdec (hnd d)
      | int n =>
        rw [hdec] at h
        simp only at h
        repeat' split at h
        all_goals first
          | exact Except.noConfusion h
          | (cases h; exact ⟨rfl, rfl⟩)
      | string s =>
        rw [hdec] at h
        simp only at h
        repeat' split at h
        all_goals first
          | exact Except.noConfusion h
          | (cases h; exact ⟨rfl, rfl⟩)
      | bool b =>
        rw [hdec] at h
        simp only at h
        repeat' split at h
        all_goals first
          | exact Except.noConfusion h
          | (cases h; exact ⟨rfl, rfl⟩)
      | other t =>
        rw [hdec] at h
        simp only at h
        repeat' split at h
        all_goals first
          | exact Except.noConfusion h
          | (cases h; exact ⟨rfl, rfl⟩)

/-- Witness for C12: a queue manager node of type `"Full"` with `decom = 9`, and
the same node with `decom` given as a string. -/
theorem C12_role_and_decom_witness :
    (buildQueueManager (fullQmgrNode (.int64 9)) (demoMatch 1) = .ok (fullQmgrRecord 0 9)
      ∧ (fullQmgrRecord 0 9).Decom = 9 ∧ (fullQmgrRecord 0 9).Repos = 0)
    ∧ (buildQueueManager (fullQmgrNode (.string "9")) (demoMatch 1) = .ok (fullQmgrRecord 3 0)
      ∧ (fullQmgrRecord 3 0).Decom = 0 ∧ (fullQmgrRecord 3 0).Repos = 3) :=
  ⟨⟨rfl,
      ((C12_role_and_decom (fullQmgrNode (.int64 9)) (demoMatch 1) (fullQmgrRecord 0 9)
        rfl).1 9 rfl).1,
      ((C12_role_and_decom (fullQmgrNode (.int64 9)) (demoMatch 1) (fullQmgrRecord 0 9)
        rfl).1 9 rfl).2.1 rfl⟩,
    ⟨rfl,
      (C12_role_and_decom (fullQmgrNode (.string "9")) (demoMatch 1) (fullQmgrRecord 3 0)
        rfl).2 (by
          intro d h
          have e : propGet "decom" (fullQmgrNode (.string "9")).props
              = some (.string "9") := rfl
          rw [e] at h
          cases h)⟩⟩

/-- C13: classification looks at the first label only.  A node whose first label
is `QueueManager` is handled by the queue manager extraction and one whose
first label is `Application` by the application extraction, whatever
labels follow; a node with any other first label is skipped: no error, and
the state (all three stores) is as before. -/
theorem C13_first_label_decides (st : State) (node : Node) (lab0 : String) (rest : List String)
    (hlab : node.labels = lab0 :: rest) :
    (lab0 = "QueueManager" → processNode st node = processQueueManagerNode st node)
    ∧ (lab0 = "Application" → processNode st node = processApplicationNode st node)
    ∧ (lab0 ≠ "QueueManager" → lab0 ≠ "Application" → processNode st node = (st, .ok)) := by
  refine ⟨?_, ?_, ?_⟩
  · intro h
    simp [processNode, hlab, h]
  · intro h
    simp [processNode, hlab, h]
  · intro h1 h2
    simp [processNode, hlab, h1, h2]

/-- Witness for C13: a node labelled `Server` first and `QueueManager` second is
skipped; a node labelled `QueueManager` first is extracted. -/
theorem C13_first_label_decides_witness :
    processNode (initState (demoMatch 1))
        { id := 1, labels := ["Server", "QueueManager"], props := [] }
      = (initState (demoMatch 1), .ok)
    ∧ processNode (initState (demoMatch 1))
        { demoQmgrNode 1 10 "QM1" with labels := ["QueueManager", "Server"] }
      = processQueueManagerNode (initState (demoMatch 1))
          { demoQmgrNode 1 10 "QM1" with labels := ["QueueManager", "Server"] } :=
  ⟨(C13_first_label_decides (initState (demoMatch 1))
      { id := 1, labels := ["Server", "QueueManager"], props := [] } "Server" ["QueueManager"]
      rfl).2.2 (by decide) (by decide),
    (C13_first_label_decides (initState (demoMatch 1))
      { demoQmgrNode 1 10 "QM1" with labels := ["QueueManager", "Server"] } "QueueManager"
      ["Server"] rfl).1 rfl⟩

/-- C14: both record shapes are handled alike.  In any query result, replacing a
record whose value is the bare node `n` by a record whose value is a path
with node list `[n]` and no relationships (anywhere in the sequence, in
either mode, from any state) gives the same final state, so the same
queue manager and application collections, and the same outcome. -/
theorem C14_bare_node_as_path (onlyRelationships : Bool) (before after : List Record)
    (n : Node) (vs : List RecordValue) (st : State) :
    processRecords onlyRelationships [] (before ++ (.node n :: vs) :: after) st
      = processRecords onlyRelationships [] (before ++ (.path [n] [] :: vs) :: after) st := by
  rw [processRecords_eq_naive, processRecords_eq_naive]
  exact processRecordsNaive_bare_eq_path _ _ _ _ _ _

/-- C15: a failure of the root query is fatal.  When the session opens and the
root query fails, `RunQuery` returns that error for every `maxLayers` and
every iteration order; the only query issued is the root query, and the
response and the three maps are empty. -/
theorem C15_root_failure_fatal (driver : Driver) (session : Session) (order : List Int)
    (m : Match) (e : GoError) (hd : driver.newSession = .ok session)
    (hfail : session.run 0 m.Neo4jQuery = .error e) :
    RunQuery driver order m
      = some ({ initState m with m := { m with Layer := 1 }, issued := [m.Neo4jQuery] },
              .err e) := by
  have hroot : rootRound session m
      = ({ initState m with m := { m with Layer := 1 }, issued := [m.Neo4jQuery] },
          .err e) := by
    unfold rootRound runQueryOnCurrentNode
    simp only [initState, List.length_nil, List.nil_append]
    rw [hfail]
  have hne : (rootRound session m).2 ≠ .ok := by
    rw [hroot]
    intro h
    cases h
  rw [RunQuery_root_not_ok order m hd hne, hroot]

/-- Witness for C15: a database in which every query fails, `maxLayers = 3`. -/
theorem C15_root_failure_fatal_witness :
    failingSession.run 0 (demoMatch 3).Neo4jQuery = .error "connection lost"
    ∧ RunQuery ⟨.ok failingSession⟩ [1, 2] (demoMatch 3)
      = some ({ initState (demoMatch 3) with
                m := { demoMatch 3 with Layer := 1 }
                issued := [(demoMatch 3).Neo4jQuery] },
              .err "connection lost") :=
  ⟨rfl, C15_root_failure_fatal ⟨.ok failingSession⟩ failingSession [1, 2] (demoMatch 3)
    "connection lost" rfl rfl⟩

/-- C16: a failure of a follow-up query is not fatal and loses nothing.  When the
follow-up query for a queue manager fails, the step ends normally with
the response and the three maps as they were before it (only the receiver
and the record of issued queries move on); the loop goes on with the
remaining keys; and a call whose root query succeeded never returns an
error: it ends normally, having issued one follow-up query per key of the
iteration order, or it panics. -/
theorem C16_follow_up_failure_non_fatal (session : Session) (st : State) (node : QueueManager)
    (e : GoError)
    (hfail : session.run st.issued.length (followUpQuery node.QmgrID) = .error e) :
    followUp session st node
      = ({ st with
            m := { st.m with Neo4jQuery := followUpQuery node.QmgrID, Layer := st.m.Layer + 1 }
            issued := st.issued ++ [followUpQuery node.QmgrID] }, .ok)
    ∧ (∀ (k : Int) (rest visited : List Int), k ∉ visited →
        mapGet k st.respqmgr = some node →
        rangeLoop session (k :: rest) visited st
          = rangeLoop session rest (k :: visited)
              { st with
                m := { st.m with Neo4jQuery := followUpQuery node.QmgrID,
                                 Layer := st.m.Layer + 1 }
                issued := st.issued ++ [followUpQuery node.QmgrID] })
    ∧ (∀ (driver : Driver) (order : List Int) (m : Match) (r : State × Status),
        driver.newSession = .ok session → (rootRound session m).2 = .ok →
        RunQuery driver order m = some r →
        (∀ e', r.2 ≠ .err e')
        ∧ (2 ≤ m.Layer → r.2 = .ok → r.1.issued.length = 1 + order.length)) := by
  have hstep : followUp session st node
      = ({ st with
            m := { st.m with Neo4jQuery := followUpQuery node.QmgrID, Layer := st.m.Layer + 1 }
            issued := st.issued ++ [followUpQuery node.QmgrID] }, .ok) := by
    unfold followUp runQueryOnCurrentNode
    simp only
    rw [hfail]
  refine ⟨hstep, ?_, ?_⟩
  · intro k rest visited hk hget
    simp only [rangeLoop]
    rw [if_neg hk, hget]
    simp only
    rw [hstep]
  · intro driver order m r hd hroot hr
    by_cases hL : 2 ≤ m.Layer
    · obtain ⟨hloop, _⟩ := RunQuery_expansion hd hL hroot hr
      refine ⟨fun e' => rangeLoop_no_err _ _ _ _ _ hloop e', ?_⟩
      intro _ hok
      obtain ⟨st', s⟩ := r
      simp only at hok
      subst hok
      obtain ⟨i1, _, _, i4, _⟩ := rangeLoop_ok_facts _ _ _ _ _ hloop
      obtain ⟨hiss, _, _⟩ := rootRound_facts session m
      show st'.issued.length = _
      rw [i1, hiss, List.length_append, followUpTexts_length _ _ i4]
      simp
    · rw [RunQuery_no_expansion hd (by omega)] at hr
      have := Option.some.inj hr
      subst this
      refine ⟨fun e' h => ?_, fun h2 => absurd h2 hL⟩
      rw [hroot] at h
      cases h

/-- Witness for C16: in the example with two queue managers the follow-up query
for external id 10 fails; the call ends normally after three queries. -/
theorem C16_follow_up_failure_non_fatal_witness :
    failingFollowUpSession.run (rootRound failingFollowUpSession (demoMatch 2)).1.issued.length
        (followUpQuery 10) = .error "connection lost"
    ∧ (followUp failingFollowUpSession (rootRound failingFollowUpSession (demoMatch 2)).1
        { ID := 1, QmgrID := 10, Name := "QM1", Repos := 3, ToolTip := "", Layer := 1,
          Decom := 0, Host := "h1", Host2 := "", MultiInst := 0 }).1.resp
      = (rootRound failingFollowUpSession (demoMatch 2)).1.resp
    ∧ (RunQuery ⟨.ok failingFollowUpSession⟩ [1, 2] (demoMatch 2)).map
        (fun r => (r.2, r.1.issued.length)) = some (.ok, 3) :=
  ⟨rfl,
    congrArg (fun r => r.1.resp)
      (C16_follow_up_failure_non_fatal failingFollowUpSession
        (rootRound failingFollowUpSession (demoMatch 2)).1
        { ID := 1, QmgrID := 10, Name := "QM1", Repos := 3, ToolTip := "", Layer := 1,
          Decom := 0, Host := "h1", Host2 := "", MultiInst := 0 } "connection lost" rfl).1,
    by decide⟩

/-- C17: relationships-only mode.  For every database answer and every state, a
call of `runQueryOnCurrentNode` with `onlyRelationships = true`
(1) leaves the queue manager and application maps and ordered lists as
they were;
(2) raises no extraction error: the only panics left are those of a record
without values and of a value that is neither a path nor a node;
(3) extracts the connections exactly as the mode `onlyRelationships = false`
does: the whole call, state and outcome, is the call in that mode on the
same answer with the nodes taken out of its records, so every
relationship of the answer goes through the same relationship loop, also
where a node of its record could not be extracted;
(4) compared with the call in the mode `onlyRelationships = false` on the
very same answer, its ordered list of connections starts with the list of
that call, and when that call does not panic both end the same way with the
same connection map and list. -/
theorem C17_relationships_only (session : Session) (st : State) :
    SameNodes st (runQueryOnCurrentNode session st true).1
    ∧ (∀ p, (runQueryOnCurrentNode session st true).2 = .panic p →
        p = .indexOutOfRange ∨ ∃ t, p = .interfaceConversion t "neo4j.Node")
    ∧ runQueryOnCurrentNode session st true
        = runQueryOnCurrentNode (withoutNodesSession session) st false
    ∧ (∃ extra, (runQueryOnCurrentNode session st true).1.resp.Connections
        = (runQueryOnCurrentNode session st false).1.resp.Connections ++ extra)
    ∧ ((∀ p, (runQueryOnCurrentNode session st false).2 ≠ .panic p) →
        (runQueryOnCurrentNode session st true).2 = (runQueryOnCurrentNode session st false).2
        ∧ SameConns (runQueryOnCurrentNode session st false).1
            (runQueryOnCurrentNode session st true).1) := by
  refine ⟨runQueryOnCurrentNode_true_sameNodes session st, ?_,
    runQueryOnCurrentNode_true_eq_withoutNodes session st, ?_, ?_⟩
  · intro p hp
    unfold runQueryOnCurrentNode at hp
    simp only at hp
    split at hp
    · cases hp
    · rename_i records _
      rcases processRecords_true_status records []
        { st with issued := st.issued ++ [st.m.Neo4jQuery] } with h | h | ⟨t, h⟩
      · rw [h] at hp; cases hp
      · rw [h] at hp; cases hp; exact Or.inl rfl
      · rw [h] at hp; cases hp; exact Or.inr ⟨t, rfl⟩
  · unfold runQueryOnCurrentNode
    simp only
    cases hrun : session.run st.issued.length st.m.Neo4jQuery with
    | error e => exact ⟨[], by simp⟩
    | ok records => exact processRecords_conns_extend records [] _ _ (SameConns.here _)
  · intro hnp
    unfold runQueryOnCurrentNode at hnp ⊢
    simp only at hnp ⊢
    cases hrun : session.run st.issued.length st.m.Neo4jQuery with
    | error e => exact ⟨rfl, SameConns.here _⟩
    | ok records =>
      rw [hrun] at hnp
      simp only at hnp ⊢
      have hok : (processRecords false [] records
          { st with issued := st.issued ++ [st.m.Neo4jQuery] }).2 = .ok := by
        cases hs : (processRecords false [] records
            { st with issued := st.issued ++ [st.m.Neo4jQuery] }).2 with
        | ok => rfl
        | err e => exact absurd hs (processRecords_no_err _ _ _ _ e)
        | panic p => exact absurd hs (hnp p)
      obtain ⟨h1, h2⟩ := processRecords_conns_of_ok records [] _ _ (SameConns.here _) hok
      exact ⟨by rw [h1, hok], h2⟩

/-- Witness for C17.  On the record of the end-to-end scenario, whose queue
manager node cannot be extracted, the call in the ordinary mode panics
with no connection recorded and the relationships-only call ends normally
with connection 99 recorded; on the root answer of the example with two
queue managers the ordinary mode does not panic and both modes end the
same way with the same connections. -/
theorem C17_relationships_only_witness :
    ((runQueryOnCurrentNode e2eSession (initState e2eMatch) false).2
        = .panic (.interfaceConversion "int" "int64")
      ∧ (runQueryOnCurrentNode e2eSession (initState e2eMatch) false).1.resp.Connections = []
      ∧ (runQueryOnCurrentNode (withoutNodesSession e2eSession) (initState e2eMatch) false).2
          = .ok
      ∧ (runQueryOnCurrentNode (withoutNodesSession e2eSession) (initState e2eMatch)
          false).1.resp.Connections = [connectionOf e2eRel]
      ∧ runQueryOnCurrentNode e2eSession (initState e2eMatch) true
          = runQueryOnCurrentNode (withoutNodesSession e2eSession) (initState e2eMatch) false)
    ∧ (∀ p, (runQueryOnCurrentNode twoQmgrSession (initState (demoMatch 1)) false).2 ≠ .panic p)
    ∧ (runQueryOnCurrentNode twoQmgrSession (initState (demoMatch 1)) true).2
        = (runQueryOnCurrentNode twoQmgrSession (initState (demoMatch 1)) false).2
    ∧ SameConns (runQueryOnCurrentNode twoQmgrSession (initState (demoMatch 1)) false).1
        (runQueryOnCurrentNode twoQmgrSession (initState (demoMatch 1)) true).1 :=
  have hok : (runQueryOnCurrentNode twoQmgrSession (initState (demoMatch 1)) false).2 = .ok := by
    decide
  have hnp : ∀ p,
      (runQueryOnCurrentNode twoQmgrSession (initState (demoMatch 1)) false).2 ≠ .panic p := by
    intro p h
    rw [hok] at h
    cases h
  ⟨⟨by decide, by decide, by decide, by decide,
      (C17_relationships_only e2eSession (initState e2eMatch)).2.2.1⟩,
    hnp, (C17_relationships_only twoQmgrSession (initState (demoMatch 1))).2.2.2.2 hnp⟩

/-- C18, counterexample: the flag `IncludeApplications` gates nothing.  There are
no two calls that differ only in that flag (same database, same request
otherwise, same iteration order of the map) and differ in the response,
the outcome or the queries issued. -/
theorem C18_includeApplications_never_read :
    ¬ ∃ (driver : Driver) (order : List Int) (m : Match) (flag : Bool)
        (r r' : State × Status),
        RunQuery driver order m = some r
        ∧ RunQuery driver order { m with IncludeApplications := flag } = some r'
        ∧ (r.1.resp ≠ r'.1.resp ∨ r.2 ≠ r'.2 ∨ r.1.issued ≠ r'.1.issued) := by
  rintro ⟨driver, order, m, flag, r, r', h1, h2, hdiff⟩
  rw [RunQuery_flag, h1] at h2
  have hr : r' = withApplicationsOutcome flag r := (Option.some.inj h2).symm
  subst hr
  rcases hdiff with h | h | h <;> exact h rfl

/-- C18, amended: of the two flags only `IncludeNodes` gates node classification.
Two calls that differ only in `IncludeNodes` can return different
snapshots (shown on the chain example, where the follow-up query adds a
queue manager only when the flag is off); two calls that differ only in
`IncludeApplications` end with the same response, the same outcome and
the same queries, and are admissible for the same iteration orders. -/
theorem C18_only_includeNodes_gates (driver : Driver) (order : List Int) (m : Match)
    (flag : Bool) :
    (RunQuery driver order { m with IncludeApplications := flag }).map
        (fun r => (r.1.resp, r.2, r.1.issued))
      = (RunQuery driver order m).map (fun r => (r.1.resp, r.2, r.1.issued))
    ∧ (RunQuery ⟨.ok chainSession⟩ [1] (demoMatch 2)).map
        (fun r => (r.2, r.1.resp.QueueManagers.map (fun q => q.QmgrID))) = some (.ok, [10, 20])
    ∧ (RunQuery ⟨.ok chainSession⟩ [1] { demoMatch 2 with IncludeNodes := true }).map
        (fun r => (r.2, r.1.resp.QueueManagers.map (fun q => q.QmgrID))) = some (.ok, [10]) := by
  refine ⟨?_, by decide, by decide⟩
  rw [RunQuery_flag]
  cases RunQuery driver order m with
  | none => rfl
  | some r => rfl

/-- C19: `RunQuery` overwrites its receiver.  When the session opens and the call
returns normally, the queries issued are the root query followed by the
follow-up queries; the layer left in the receiver is 1 plus the number of
follow-up queries (so 1 when the layer on entry was at most 1), the query
text left in it is that of the last follow-up query when there was one
and the root query otherwise, and the other fields are as on entry. -/
theorem C19_receiver_overwritten (driver : Driver) (session : Session) (order : List Int)
    (m : Match) (st : State) (hd : driver.newSession = .ok session)
    (hr : RunQuery driver order m = some (st, .ok)) :
    ∃ followUps : List String,
      st.issued = m.Neo4jQuery :: followUps
      ∧ st.m.Layer = 1 + followUps.length
      ∧ (m.Layer ≤ 1 → followUps = [])
      ∧ (followUps = [] → st.m.Neo4jQuery = m.Neo4jQuery)
      ∧ (∀ q, followUps.getLast? = some q → st.m.Neo4jQuery = q)
      ∧ st.m.IncludeNodes = m.IncludeNodes
      ∧ st.m.IncludeApplications = m.IncludeApplications
      ∧ st.m.Username = m.Username := by
  obtain ⟨hiss, hm, _⟩ := rootRound_facts session m
  have hrootlast : (rootRound session m).1.issued.getLast?
      = some (rootRound session m).1.m.Neo4jQuery := by
    rw [hiss, hm]; rfl
  have hfinal : ∀ fs : List String, st.issued = m.Neo4jQuery :: fs →
      st.issued.getLast? = some st.m.Neo4jQuery →
      (fs = [] → st.m.Neo4jQuery = m.Neo4jQuery)
      ∧ (∀ q, fs.getLast? = some q → st.m.Neo4jQuery = q) := by
    intro fs hfs hl
    rw [hfs] at hl
    constructor
    · intro hnil
      subst hnil
      simp only [List.getLast?_singleton] at hl
      exact (Option.some.inj hl).symm
    · intro q hq
      cases fs with
      | nil => simp at hq
      | cons a l =>
        rw [List.getLast?_cons_cons, hq] at hl
        exact (Option.some.inj hl).symm
  by_cases hL : 2 ≤ m.Layer
  · have hroot : (rootRound session m).2 = .ok := by
      by_contra hne
      rw [RunQuery_root_not_ok _ _ hd hne] at hr
      exact hne (congrArg Prod.snd (Option.some.inj hr))
    obtain ⟨hloop, _⟩ := RunQuery_expansion hd hL hroot hr
    obtain ⟨i1, _, _, i4, _, _, i7, _⟩ := rangeLoop_ok_facts _ _ _ _ _ hloop
    obtain ⟨j1, j2, j3, j4⟩ := rangeLoop_receiver _ _ _ _ _ hloop hrootlast
    simp only at j1 j2 j3 j4
    have hissued : st.issued = m.Neo4jQuery :: followUpTexts st.respqmgr order := by
      rw [i1, hiss]; rfl
    obtain ⟨f1, f2⟩ := hfinal _ hissued j1
    refine ⟨followUpTexts st.respqmgr order, hissued, ?_, fun h => absurd h (by omega), f1, f2,
      ?_, ?_, ?_⟩
    · rw [i7, hm, followUpTexts_length _ _ i4]
    · rw [j2, hm]
    · rw [j3, hm]
    · rw [j4, hm]
  · rw [RunQuery_no_expansion hd (by omega)] at hr
    have hst : (rootRound session m).1 = st := congrArg Prod.fst (Option.some.inj hr)
    rw [hst] at hiss hm
    refine ⟨[], hiss, by rw [hm]; rfl, fun _ => rfl, fun _ => by rw [hm], fun q hq => by simp at hq,
      by rw [hm], by rw [hm], by rw [hm]⟩

/-- Witness for C19: the example with two queue managers and `maxLayers = 2`
leaves layer 3 and the text of the second follow-up query in the receiver. -/
theorem C19_receiver_overwritten_witness :
    ∃ followUps : List String,
      ((RunQuery ⟨.ok twoQmgrSession⟩ [1, 2] (demoMatch 2)).getD
          (initState (demoMatch 2), .ok)).1.issued = (demoMatch 2).Neo4jQuery :: followUps
      ∧ ((RunQuery ⟨.ok twoQmgrSession⟩ [1, 2] (demoMatch 2)).getD
          (initState (demoMatch 2), .ok)).1.m.Layer = 1 + followUps.length :=
  (C19_receiver_overwritten ⟨.ok twoQmgrSession⟩ twoQmgrSession [1, 2] (demoMatch 2) _ rfl
    (by decide)).imp (fun _ h => ⟨h.1, h.2.1⟩)

/-- C20: the node buffer is carried from record to record (a bare node is
appended to the nodes of the records before it, and the whole buffer is
processed), and yet the loop is the naive one: for every sequence of
records, every mode and every state at the start of the query result, the
final state and the outcome are those of the procedure that processes
for each record only that record's own nodes. -/
theorem C20_buffer_reprocessing_harmless (onlyRelationships : Bool) (records : List Record)
    (st : State) :
    processRecords onlyRelationships [] records st
      = processRecordsNaive onlyRelationships records st
    ∧ (∀ (nodes : List Node) (n : Node) (vs : List RecordValue) (more : List Record),
        processRecords false nodes ((.node n :: vs) :: more) st
          = match processNodes (nodes ++ [n]) st with
            | (st1, .ok) => processRecords false (nodes ++ [n]) more st1
            | (st1, s) => (st1, s)) :=
  ⟨processRecords_eq_naive _ _ _, fun _ _ _ _ => rfl⟩

end Mqneo4j
